import Mathlib

/-!
# RepriseDB core — verification of the specification's claims

This development shallowly embeds the core of the RepriseDB repository
(`reprisedb/packers.py`, `reprisedb/datastore.py`, `reprisedb/entries.py`,
`reprisedb/database.py`) in Lean.  Byte strings are modelled as `List Nat`
(each byte `< 256` where that matters), the LMDB environment as a list of
`(key, value)` records kept strictly sorted by key, and Python's byte-string
comparison as the boolean lexicographic order `lexLt`.
-/

namespace RepriseDB

/-- Byte strings: lists of naturals. -/
abbrev Bytes := List Nat

/-- Python 2 byte-string `<`: lexicographic, with a proper prefix ordered
before its extensions. -/
def lexLt : Bytes → Bytes → Bool
  | [], [] => false
  | [], _ :: _ => true
  | _ :: _, [] => false
  | a :: as, b :: bs => decide (a < b) || (decide (a = b) && lexLt as bs)

@[simp] theorem lexLt_nil_nil : lexLt [] [] = false := rfl

@[simp] theorem lexLt_nil_cons (b : Nat) (bs : Bytes) : lexLt [] (b :: bs) = true := rfl

@[simp] theorem lexLt_cons_nil (a : Nat) (as : Bytes) : lexLt (a :: as) [] = false := rfl

theorem lexLt_cons_cons (a b : Nat) (as bs : Bytes) :
    lexLt (a :: as) (b :: bs) = (decide (a < b) || (decide (a = b) && lexLt as bs)) := rfl

theorem lexLt_irrefl (a : Bytes) : lexLt a a = false := by
  induction a with
  | nil => rfl
  | cons x xs ih => simp [lexLt_cons_cons, ih]

theorem lexLt_trans : ∀ {a b c : Bytes}, lexLt a b = true → lexLt b c = true → lexLt a c = true
  | [], _ :: _, _ :: _, _, _ => rfl
  | a :: as, b :: bs, c :: cs, hab, hbc => by
    simp only [lexLt_cons_cons, Bool.or_eq_true, Bool.and_eq_true, decide_eq_true_eq] at *
    rcases hab with hab | ⟨hab, hab'⟩ <;> rcases hbc with hbc | ⟨hbc, hbc'⟩
    · exact Or.inl (Nat.lt_trans hab hbc)
    · exact Or.inl (hbc ▸ hab)
    · exact Or.inl (hab ▸ hbc)
    · exact Or.inr ⟨hab.trans hbc, lexLt_trans hab' hbc'⟩

theorem lexLt_trichotomy : ∀ a b : Bytes, lexLt a b = true ∨ a = b ∨ lexLt b a = true
  | [], [] => Or.inr (Or.inl rfl)
  | [], _ :: _ => Or.inl rfl
  | _ :: _, [] => Or.inr (Or.inr rfl)
  | a :: as, b :: bs => by
    rcases Nat.lt_trichotomy a b with h | h | h
    · exact Or.inl (by simp [lexLt_cons_cons, h])
    · rcases lexLt_trichotomy as bs with h' | h' | h'
      · exact Or.inl (by simp [lexLt_cons_cons, h, h'])
      · exact Or.inr (Or.inl (by rw [h, h']))
      · exact Or.inr (Or.inr (by simp [lexLt_cons_cons, h, h']))
    · exact Or.inr (Or.inr (by simp [lexLt_cons_cons, h]))

theorem lexLt_asymm {a b : Bytes} (h : lexLt a b = true) : lexLt b a = false := by
  by_contra h'
  have hba : lexLt b a = true := by
    cases hb : lexLt b a
    · exact absurd hb h'
    · rfl
  have := lexLt_trans h hba
  rw [lexLt_irrefl] at this
  exact Bool.false_ne_true this

theorem lexLt_of_ne_of_not_lt {a b : Bytes} (hne : a ≠ b) (h : lexLt a b = false) :
    lexLt b a = true := by
  rcases lexLt_trichotomy a b with h' | h' | h'
  · rw [h'] at h; exact absurd h (by simp)
  · exact absurd h' hne
  · exact h'

/-- Appending a common prefix preserves the comparison. -/
theorem lexLt_append_left (p : Bytes) (a b : Bytes) :
    lexLt (p ++ a) (p ++ b) = lexLt a b := by
  induction p with
  | nil => rfl
  | cons x xs ih => simp [lexLt_cons_cons, ih]

/-- A proper prefix is strictly smaller. -/
theorem lexLt_of_prefix_ne : ∀ {a b : Bytes}, a <+: b → a ≠ b → lexLt a b = true
  | [], [], _, hne => absurd rfl hne
  | [], _ :: _, _, _ => rfl
  | a :: as, b :: bs, hpre, hne => by
    obtain ⟨t, ht⟩ := hpre
    injection ht with h1 h2
    subst h1
    have hpre' : as <+: bs := ⟨t, h2⟩
    have hne' : as ≠ bs := fun h => hne (by rw [h])
    simp [lexLt_cons_cons, lexLt_of_prefix_ne hpre' hne']

theorem lexLt_append_right (a : Bytes) {x : Bytes} (hx : x ≠ []) :
    lexLt a (a ++ x) = true := by
  apply lexLt_of_prefix_ne ⟨x, rfl⟩
  intro h
  apply hx
  have hlen := congrArg List.length h
  simp only [List.length_append] at hlen
  have : x.length = 0 := by omega
  exact List.length_eq_zero.mp this

theorem not_lexLt_append (a x : Bytes) : lexLt (a ++ x) a = false := by
  rcases List.eq_nil_or_concat x with hx | _
  · subst hx; simp [lexLt_irrefl]
  · have h := lexLt_append_right a (x := x) (by rintro rfl; simp_all)
    exact lexLt_asymm h

/-- If neither of two byte strings is a prefix of the other, the comparison of
any extensions is decided by the strings themselves. -/
theorem lexLt_append_of_disjoint :
    ∀ {a b : Bytes}, ¬ a <+: b → ¬ b <+: a → ∀ s t : Bytes,
      lexLt (a ++ s) (b ++ t) = lexLt a b
  | [], _, hab, _, _, _ => absurd List.nil_prefix hab
  | _ :: _, [], _, hba, _, _ => absurd List.nil_prefix hba
  | a :: as, b :: bs, hab, hba, s, t => by
    by_cases h : a = b
    · subst h
      have hab' : ¬ as <+: bs := fun hp => hab (by
        obtain ⟨t', ht'⟩ := hp; exact ⟨t', by simp [ht']⟩)
      have hba' : ¬ bs <+: as := fun hp => hba (by
        obtain ⟨t', ht'⟩ := hp; exact ⟨t', by simp [ht']⟩)
      simp [lexLt_cons_cons, lexLt_append_of_disjoint hab' hba' s t]
    · simp [List.cons_append, lexLt_cons_cons, h]

/-! ## Big-endian fixed-width encoding (`struct.pack` with `>B`, `>H`, `>I`) -/

/-- Big-endian encoding of `n` on `w` bytes (most significant byte first).
Models `struct.Struct(fmt).pack` for the unsigned big-endian formats; callers
stay in range (`n < 256 ^ w`), which every theorem hypothesises. -/
def beBytes : Nat → Nat → Bytes
  | 0, _ => []
  | w + 1, n => n / 256 ^ w :: beBytes w (n % 256 ^ w)

/-- Big-endian decoding, models `struct.Struct(fmt).unpack`. -/
def beVal : Bytes → Nat
  | [] => 0
  | b :: bs => b * 256 ^ bs.length + beVal bs

@[simp] theorem beBytes_length (w n : Nat) : (beBytes w n).length = w := by
  induction w generalizing n with
  | zero => rfl
  | succ w ih => simp [beBytes, ih]

theorem beVal_beBytes {w n : Nat} (h : n < 256 ^ w) : beVal (beBytes w n) = n := by
  induction w generalizing n with
  | zero =>
    have : n = 0 := Nat.lt_one_iff.mp (by simpa using h)
    simp [beBytes, beVal, this]
  | succ w ih =>
    have hmod : n % 256 ^ w < 256 ^ w := Nat.mod_lt _ (Nat.pos_pow_of_pos w (by norm_num))
    simp only [beBytes, beVal, ih hmod, beBytes_length]
    exact Nat.div_add_mod' n (256 ^ w)

/-- Positional comparison of digits: `d1*B + m' < d2*B + n'` decomposes. -/
theorem digit_lt_iff {B : Nat} (d1 d2 m' n' : Nat) (hm : m' < B) (hn : n' < B) :
    (d1 * B + m' < d2 * B + n') ↔ (d1 < d2 ∨ (d1 = d2 ∧ m' < n')) := by
  constructor
  · intro h
    rcases Nat.lt_trichotomy d1 d2 with hd | hd | hd
    · exact Or.inl hd
    · subst hd
      exact Or.inr ⟨rfl, by omega⟩
    · exfalso
      have h1 : d2 * B + n' < d2 * B + B := by omega
      have h2 : d2 * B + B = (d2 + 1) * B := by ring
      have h3 : (d2 + 1) * B ≤ d1 * B := Nat.mul_le_mul_right B hd
      omega
  · rintro (hd | ⟨hd, hmn⟩)
    · have h1 : d1 * B + m' < d1 * B + B := by omega
      have h2 : d1 * B + B = (d1 + 1) * B := by ring
      have h3 : (d1 + 1) * B ≤ d2 * B := Nat.mul_le_mul_right B hd
      omega
    · subst hd; omega

/-- For in-range values, lexicographic order of big-endian encodings is
numeric order. -/
theorem lexLt_beBytes {w m n : Nat} (hm : m < 256 ^ w) (hn : n < 256 ^ w) :
    lexLt (beBytes w m) (beBytes w n) = decide (m < n) := by
  induction w generalizing m n with
  | zero =>
    have hm0 : m = 0 := Nat.lt_one_iff.mp (by simpa using hm)
    have hn0 : n = 0 := Nat.lt_one_iff.mp (by simpa using hn)
    simp [beBytes, hm0, hn0]
  | succ w ih =>
    have hB : (0:Nat) < 256 ^ w := Nat.pos_pow_of_pos w (by norm_num)
    have hmm : m % 256 ^ w < 256 ^ w := Nat.mod_lt _ hB
    have hnm : n % 256 ^ w < 256 ^ w := Nat.mod_lt _ hB
    have hdecomp : m / 256 ^ w * 256 ^ w + m % 256 ^ w < n / 256 ^ w * 256 ^ w + n % 256 ^ w
        ↔ m < n := by
      rw [Nat.div_add_mod', Nat.div_add_mod']
    rw [beBytes, beBytes, lexLt_cons_cons, ih hmm hnm]
    rcases Nat.lt_trichotomy (m / 256 ^ w) (n / 256 ^ w) with hd | hd | hd
    · have : m < n := by
        rw [← hdecomp]
        exact (digit_lt_iff _ _ _ _ hmm hnm).mpr (Or.inl hd)
      simp [hd, Nat.ne_of_lt hd, this]
    · have : (m < n) ↔ (m % 256 ^ w < n % 256 ^ w) := by
        rw [← hdecomp, digit_lt_iff _ _ _ _ hmm hnm]
        simp [hd]
      simp [hd, this]
    · have : ¬ m < n := by
        rw [← hdecomp, digit_lt_iff _ _ _ _ hmm hnm]
        push_neg
        exact ⟨Nat.le_of_lt hd, fun h => absurd h (by omega)⟩
      simp [Nat.ne_of_gt hd, Nat.not_lt_of_lt hd, this]

theorem beBytes_inj {w m n : Nat} (hm : m < 256 ^ w) (hn : n < 256 ^ w)
    (h : beBytes w m = beBytes w n) : m = n := by
  rw [← beVal_beBytes hm, ← beVal_beBytes hn, h]

theorem beBytes_mem_lt {w n : Nat} (h : n < 256 ^ w) : ∀ b ∈ beBytes w n, b < 256 := by
  induction w generalizing n with
  | zero => simp [beBytes]
  | succ w ih =>
    intro b hb
    have hB : (0:Nat) < 256 ^ w := Nat.pos_pow_of_pos w (by norm_num)
    rw [beBytes] at hb
    rcases List.mem_cons.mp hb with hb | hb
    · subst hb
      exact Nat.div_lt_of_lt_mul (by rw [← pow_succ]; exact h)
    · exact ih (Nat.mod_lt _ hB) b hb

/-! ## The revision packer (`packers.RevisionPacker` over `">I"`) -/

/-- `p_revision.max`: the largest 32-bit revision. -/
def maxU32 : Nat := 4294967295

/-- `p_revision.pack(r)`: 4-byte big-endian of `max - r` (inverted so that for
a fixed user key the cursor visits newest revisions first). -/
def packRev (r : Nat) : Bytes := beBytes 4 (maxU32 - r)

theorem packRev_length (r : Nat) : (packRev r).length = 4 := beBytes_length 4 _

theorem packRev_lt {r s : Nat} (hr : r ≤ maxU32) (hs : s ≤ maxU32) :
    lexLt (packRev s) (packRev r) = decide (r < s) := by
  have h1 : maxU32 - s < 256 ^ 4 := by unfold maxU32; omega
  have h2 : maxU32 - r < 256 ^ 4 := by unfold maxU32; omega
  rw [packRev, packRev, lexLt_beBytes h1 h2]
  by_cases h : r < s
  · simp [h, Nat.sub_lt_sub_left (Nat.lt_of_lt_of_le h hs) h]
  · have : ¬ maxU32 - s < maxU32 - r := by omega
    simp [h, this]

theorem packRev_inj {r s : Nat} (hr : r ≤ maxU32) (hs : s ≤ maxU32)
    (h : packRev r = packRev s) : r = s := by
  have := beBytes_inj (w := 4) (by unfold maxU32 at *; omega) (by unfold maxU32 at *; omega) h
  omega

/-- If two byte strings of equal length compare strictly, so do arbitrary
extensions of them (the first difference lies inside the common region). -/
theorem lexLt_append_of_length_eq {x y : Bytes} (hlen : x.length = y.length)
    (h : lexLt x y = true) (s t : Bytes) : lexLt (x ++ s) (y ++ t) = true := by
  have hne : x ≠ y := by
    rintro rfl
    rw [lexLt_irrefl] at h
    exact Bool.false_ne_true h
  have hp1 : ¬ x <+: y := fun hp => hne (hp.eq_of_length hlen)
  have hp2 : ¬ y <+: x := fun hp => hne (hp.eq_of_length hlen.symm).symm
  rw [lexLt_append_of_disjoint hp1 hp2 s t]
  exact h

/-- If `b` is free of zero bytes and `a < b`, then `a ‖ 0 ‖ s < b ‖ 0 ‖ t`:
the NUL terminator keeps string comparisons stable under suffixes. -/
theorem lexLt_nul_append {a b : Bytes} (hnb : ∀ x ∈ b, x ≠ 0)
    (h : lexLt a b = true) (s t : Bytes) :
    lexLt (a ++ 0 :: s) (b ++ 0 :: t) = true := by
  by_cases hp : a <+: b
  · obtain ⟨w, hw⟩ := hp
    subst hw
    cases w with
    | nil =>
      rw [List.append_nil, lexLt_irrefl] at h
      exact absurd h (by simp)
    | cons c cs =>
      have hc : c ≠ 0 := hnb c (by simp)
      have : lexLt (0 :: s) (c :: (cs ++ 0 :: t)) = true := by
        simp [lexLt_cons_cons, Nat.pos_of_ne_zero hc]
      calc lexLt (a ++ 0 :: s) ((a ++ c :: cs) ++ 0 :: t)
          = lexLt (a ++ 0 :: s) (a ++ c :: (cs ++ 0 :: t)) := by simp
        _ = true := by rw [lexLt_append_left]; exact this
  · by_cases hq : b <+: a
    · exfalso
      by_cases he : b = a
      · subst he; rw [lexLt_irrefl] at h; exact Bool.false_ne_true h
      · have h1 := lexLt_of_prefix_ne hq he
        have h2 := lexLt_asymm h1
        rw [h] at h2
        exact absurd h2 (by simp)
    · rw [lexLt_append_of_disjoint hp hq]
      exact h

/-! ## Packers (`packers.py`) -/

/-- Sentinels from `reprisedb/__init__.py` (that file is not under `src/`).
Modelled from the spec: `NUL` is the byte `0x00` and `ONE` the byte `0x01`
(§4.7 `key_range`); the tombstone sentinel `DELETED` is the single byte
`0x00` (§6 storage format). -/
def NUL : Bytes := [0]

/-- See `NUL`. -/
def ONE : Bytes := [1]

/-- See `NUL`: the tombstone sentinel byte. -/
def DELETED : Bytes := [0]

/-- `UnsignedIntegerPacker.pack` (`NumberPacker.pack`): fixed-width big-endian;
the `index` flag is ignored. -/
def unsignedIntegerPack (size : Nat) (v : Nat) : Bytes := beBytes size v

/-- `SignedIntegerPacker.__init__`: `self.max /= 2` leaves
`max = offset = (256 ** size - 1) // 2` (Python 2 floor division). -/
def signedOffset (size : Nat) : Nat := (256 ^ size - 1) / 2

/-- `SignedIntegerPacker.pack`: `self.packer.pack(value + self.offset)`. -/
def signedIntegerPack (size : Nat) (v : Int) : Bytes :=
  beBytes size (v + signedOffset size).toNat

/-- `SignedIntegerPacker.unpack`: `self.packer.unpack(value)[0] - self.offset`. -/
def signedIntegerUnpack (size : Nat) (b : Bytes) : Int :=
  (beVal b : Int) - signedOffset size

/-- `FloatPacker.pack` acting on the 32-bit IEEE-754 bit pattern of the value:
`chr(ord(b[0]) ^ 0x80) + b[1:]` XORs the sign bit, i.e. XORs `2^31` on the
big-endian pattern. -/
def floatFlip (p : Nat) : Nat := if p < 2 ^ 31 then p + 2 ^ 31 else p - 2 ^ 31

/-- `FloatPacker.pack` on bit patterns (4-byte big-endian of the flipped
pattern). -/
def floatPack (p : Nat) : Bytes := beBytes 4 (floatFlip p)

/-- Numeric rank realising the IEEE-754 value order on non-NaN 32-bit patterns
(negatives, which have the sign bit set, in descending pattern order below all
non-negatives): the float codec's declared semantic order. -/
def floatRank (p : Nat) : Nat := if p < 2 ^ 31 then 2 ^ 31 + p else 2 ^ 32 - 1 - p

/-- The float codec's declared order on bit patterns. -/
def floatLt (p q : Nat) : Prop := floatRank p < floatRank q

instance (p q : Nat) : Decidable (floatLt p q) :=
  inferInstanceAs (Decidable (floatRank p < floatRank q))

/-- `StringPacker.pack`: raw bytes; in index mode a NUL byte is appended. -/
def stringPack (index : Bool) (v : Bytes) : Bytes := if index then v ++ NUL else v

/-! ## The ordered byte-KV environment (the LMDB driver contract)

The driver exposes an ordered byte-keyed map with a cursor whose
`set_range(k)` positions at the smallest key `≥ k`.  We model the map as a
list of records kept strictly sorted by key and `set_range` by the index of
the first record whose key is not below the target. -/

/-- A physical record of a sub-store. -/
structure Rec where
  key : Bytes
  val : Bytes
deriving DecidableEq

instance : Inhabited Rec := ⟨⟨[], []⟩⟩

/-- `cursor.set_range(target)`: index of the first record with key `≥ target`
(`env.length` when positioning fails). -/
def setRangeIdx (env : List Rec) (target : Bytes) : Nat :=
  env.findIdx (fun e => !lexLt e.key target)

/-- The key at index `i` (defaulting past the end). -/
def keyAt (env : List Rec) (i : Nat) : Bytes := (env.getD i default).key

/-- The value at index `i` (defaulting past the end). -/
def valAt (env : List Rec) (i : Nat) : Bytes := (env.getD i default).val

/-- `key[:-4]`: the user-key part of a physical key. -/
def userPart (k : Bytes) : Bytes := k.take (k.length - 4)

/-- `key[-4:]`: the packed-revision part of a physical key. -/
def revPart (k : Bytes) : Bytes := k.drop (k.length - 4)

/-- The revision number encoded in the last four bytes of a physical key
(revisions are stored inverted). -/
def revOf (k : Bytes) : Nat := maxU32 - beVal (revPart k)

/-- Python's `x or d` for an optional integer argument: `None` *and zero* both
fall back to the default. -/
def pyOr (x? : Option Nat) (d : Nat) : Nat :=
  match x? with
  | none => d
  | some x => if x = 0 then d else x

/-! ## `RevisionDataStore` (`datastore.py`) -/

/-- A `RevisionDataStore`: the sorted environment plus `current_revision`. -/
structure RDS where
  env : List Rec
  currentRevision : Nat
deriving DecidableEq

/-- An LMDB `put`: insert a record into the sorted environment, replacing any
record with an equal key. -/
def envInsert : List Rec → Rec → List Rec
  | [], r => [r]
  | e :: rest, r =>
    if lexLt r.key e.key then r :: e :: rest
    else if r.key = e.key then r :: rest
    else e :: envInsert rest r

/-- `RevisionDataStore.raw_store`: `cursor.putmulti(data)`. -/
def rawStore (env : List Rec) (data : List Rec) : List Rec :=
  data.foldl envInsert env

/-- `RevisionDataStore.store(data, revision)`: reject `current_revision >
revision` (the monotonicity check), else write each item under
`key ‖ pack(revision)` and set `current_revision = revision`. -/
def rdsStore (ds : RDS) (data : List (Bytes × Bytes)) (revision : Nat) :
    Except String RDS :=
  if ds.currentRevision > revision then .error "MonotonicityError"
  else .ok ⟨rawStore ds.env (data.map fun kv => ⟨kv.1 ++ packRev revision, kv.2⟩),
            revision⟩

/-- `RevisionDataStore.get_item(key, end_revision, start_revision)`: position
the cursor at `key ++ pack(end_revision or max)`; a positioning failure, a
different user-key prefix, or a revision suffix above
`pack(start_revision or 0)` raises `KeyError` (modelled as `none`); otherwise
the packed revision and value are returned. -/
def rdsGetItem (env : List Rec) (key : Bytes) (endRevision? startRevision? : Option Nat) :
    Option (Bytes × Bytes) :=
  let last := packRev (pyOr startRevision? 0)
  let first := packRev (pyOr endRevision? maxU32)
  let i := setRangeIdx env (key ++ first)
  if i < env.length then
    let k := userPart (keyAt env i)
    let r := revPart (keyAt env i)
    if k ≠ key ∨ lexLt last r = true then none
    else some (r, valAt env i)
  else none

/-- Outcome of the revision-skip preamble of one `iter_items` loop iteration. -/
inductive SkipResult where
  | stop : SkipResult
  | cont : Nat → SkipResult
  | proceed : Nat → SkipResult
deriving DecidableEq

/-- The head of each `RevisionDataStore.iter_items` iteration: if the current
key's revision suffix is newer than the window (`key[-4:] < first`), seek to
`key[:-4] ++ first`; a failed seek breaks, a seek landing on a later user key
restarts the loop there (`continue`), otherwise the loop body proceeds at the
landed position. -/
def skipResolve (env : List Rec) (first : Bytes) (i : Nat) : SkipResult :=
  let key := keyAt env i
  if lexLt (revPart key) first then
    let j := setRangeIdx env (userPart key ++ first)
    if j < env.length then
      if lexLt (userPart key) (userPart (keyAt env j)) then .cont j
      else .proceed j
    else .stop
  else .proceed i

/-- `if end_key and key > end_key: break` (an empty `end_key` is falsy). -/
def endKeyHit (endKey? : Option Bytes) (key : Bytes) : Bool :=
  match endKey? with
  | none => false
  | some ek => !ek.isEmpty && lexLt ek key

/-- The `iter_items` cursor loop.  Each iteration resolves the revision skip,
checks the end bound against the full physical key, yields the record when its
revision suffix is within the window (`r <= last`), and seeks to
`k + '\xFF\xFF\xFF\xFF'` to pass the remaining revisions of the current user
key.  The fuel argument dominates the number of iterations; the wrapper
supplies `env.length + 1`, which suffices because each iteration strictly
advances the cursor. -/
def rdsIterLoop (env : List Rec) (endKey? : Option Bytes) (first last : Bytes) :
    Nat → Nat → List (Bytes × Bytes × Bytes)
  | 0, _ => []
  | fuel + 1, i =>
    if i < env.length then
      match skipResolve env first i with
      | .stop => []
      | .cont j => rdsIterLoop env endKey? first last fuel j
      | .proceed j =>
        let key := keyAt env j
        if endKeyHit endKey? key then []
        else
          let k := userPart key
          let r := revPart key
          let rest := rdsIterLoop env endKey? first last fuel
            (setRangeIdx env (k ++ [255, 255, 255, 255]))
          if lexLt last r then rest else (k, r, valAt env j) :: rest
    else []

/-- `RevisionDataStore.iter_items(start_key, end_key, end_revision,
start_revision)` (an empty `start_key` is falsy and means "from the first
record"). -/
def rdsIterItems (env : List Rec) (startKey? endKey? : Option Bytes)
    (endRevision? startRevision? : Option Nat) : List (Bytes × Bytes × Bytes) :=
  let last := packRev (pyOr startRevision? 0)
  let first := packRev (pyOr endRevision? maxU32)
  let i0 := match startKey? with
    | some sk => if sk.isEmpty then 0 else setRangeIdx env sk
    | none => 0
  rdsIterLoop env endKey? first last (env.length + 1) i0

/-! ## `MemoryDataStore` and the transaction `ProxyDataStore` stack -/

/-- `MemoryDataStore.get_item` for a transaction overlay (a `SortedDict` of
encoded keys; `current_revision` of a fresh overlay is the sentinel
`'\x00\x00\x00\x00'`): returns `(current_revision, self[key])`, raising
`KeyError` (modelled `none`) when the key is absent. -/
def mdsGetItem (mem : List Rec) (memRev : Bytes) (key : Bytes) :
    Option (Bytes × Bytes) :=
  match mem.find? (fun e => e.key == key) with
  | some e => some (memRev, e.val)
  | none => none

/-- `ProxyDataStore.get_item` for the transaction stack `(MemoryDataStore,
RevisionDataStore)`: the first store that does not raise `KeyError` wins;
`KeyError` propagates if every store misses. -/
def proxyGetItem (mem : List Rec) (memRev : Bytes) (env : List Rec) (key : Bytes)
    (endRevision? startRevision? : Option Nat) : Option (Bytes × Bytes) :=
  match mdsGetItem mem memRev key with
  | some rv => some rv
  | none => rdsGetItem env key endRevision? startRevision?

/-! ## `Entry` / `BoundEntry` (`entries.py`)

The value codec's `unpack` is abstracted as a total function `vunpack`; the
tombstone check `from_db_value` performs happens before it. -/

/-- `BoundEntry.get(pk)` over a plain `RevisionDataStore` at the encoded key:
`entry.from_db_value` raises `KeyError` on the tombstone. -/
def boundEntryGet {α : Type} (env : List Rec) (endCommit? startCommit? : Option Nat)
    (dbKey : Bytes) (vunpack : Bytes → α) : Option α :=
  match rdsGetItem env dbKey endCommit? startCommit? with
  | some rv => if rv.2 = DELETED then none else some (vunpack rv.2)
  | none => none

/-- `BoundEntry.get(pk)` over the transaction stack. -/
def boundEntryGetProxy {α : Type} (mem : List Rec) (memRev : Bytes) (env : List Rec)
    (endCommit? startCommit? : Option Nat) (dbKey : Bytes) (vunpack : Bytes → α) :
    Option α :=
  match proxyGetItem mem memRev env dbKey endCommit? startCommit? with
  | some rv => if rv.2 = DELETED then none else some (vunpack rv.2)
  | none => none

/-- `Transaction.get(collection, key, default)`: `t.get_entry(collection)`
binds the entry to the stack `(overlay, persistent)` with
`end_commit = current_commit`, and any `KeyError` becomes the default. -/
def transactionGet {α : Type} (mem : List Rec) (env : List Rec) (snapshot : Nat)
    (dbKey : Bytes) (default : α) (vunpack : Bytes → α) : α :=
  (boundEntryGetProxy mem [0, 0, 0, 0] env (some snapshot) none dbKey vunpack).getD default

/-- `BoundEntry.contains(pk)`: returns `v is not None` — which is always
`True`, since both `get_item` implementations return byte strings or raise —
and lets the datastore's `KeyError` propagate (modelled `none`). -/
def boundEntryContains (mem : List Rec) (memRev : Bytes) (env : List Rec)
    (endCommit? startCommit? : Option Nat) (dbKey : Bytes) : Option Bool :=
  match proxyGetItem mem memRev env dbKey endCommit? startCommit? with
  | some _rv => some true
  | none => none

/-- `BoundEntry.iter_items` over a `RevisionDataStore`: map the codecs over
`ds.iter_items` output, filtering out tombstones (`if v != DELETED`). -/
def boundEntryIterItems {α β : Type} (env : List Rec)
    (endCommit? startCommit? : Option Nat) (startDbKey? endDbKey? : Option Bytes)
    (kunpack : Bytes → α) (vunpack : Bytes → β) : List (α × β) :=
  (rdsIterItems env startDbKey? endDbKey? endCommit? startCommit?).filterMap
    (fun t => if t.2.2 ≠ DELETED then some (kunpack t.1, vunpack t.2.2) else none)

/-- `BoundEntry.iter_keys` over a `RevisionDataStore`. -/
def boundEntryIterKeys {α : Type} (env : List Rec)
    (endCommit? startCommit? : Option Nat) (startDbKey? endDbKey? : Option Bytes)
    (kunpack : Bytes → α) : List α :=
  (rdsIterItems env startDbKey? endDbKey? endCommit? startCommit?).filterMap
    (fun t => if t.2.2 ≠ DELETED then some (kunpack t.1) else none)

/-- `BoundEntry.iter_values` over a `RevisionDataStore`. -/
def boundEntryIterValues {β : Type} (env : List Rec)
    (endCommit? startCommit? : Option Nat) (startDbKey? endDbKey? : Option Bytes)
    (vunpack : Bytes → β) : List β :=
  (rdsIterItems env startDbKey? endDbKey? endCommit? startCommit?).filterMap
    (fun t => if t.2.2 ≠ DELETED then some (vunpack t.2.2) else none)

/-! ## `SimpleIndex` / `BoundIndex` (`entries.py`)

Instantiated at the repository's standard index shape — string indexed
values with `p_uint32` primary keys (`tests/test_entries.py`,
`tests/test_database.py`). -/

/-- The `'+'` insert mark. -/
def PLUS : Bytes := [43]

/-- The `'-'` remove mark. -/
def MINUS : Bytes := [45]

/-- `SimpleIndex.to_db_key(value, pk)`: `value_packer.pack(value, index=True)`
followed by `key_packer.append_last(key, pk)` (the 4-byte big-endian pk for
`p_uint32`). -/
def indexDbKey (value : Bytes) (pk : Nat) : Bytes :=
  stringPack true value ++ beBytes 4 pk

/-- The pk component of `SimpleIndex.from_db_key(db_key)`:
`key_packer.extract_last` peels and unpacks the fixed 4-byte suffix. -/
def indexPkOf (dbKey : Bytes) : Nat := beVal (dbKey.drop (dbKey.length - 4))

/-- `SimpleIndex.key_range(start_key, end_key)`:
`(pack(start) ‖ NUL, pack(end) ‖ NUL)`, or a single-value prefix range
`(pack(start) ‖ NUL, pack(start) ‖ ONE)` when `end_key is None`. -/
def indexKeyRange (startValue : Bytes) (endValue? : Option Bytes) : Bytes × Bytes :=
  let a := stringPack false startValue
  let b := match endValue? with
    | none => a ++ ONE
    | some e => stringPack false e ++ NUL
  (a ++ NUL, b)

/-- `BoundIndex.iter_lookup_keys(start_key, end_key)` over a
`RevisionDataStore`: iterate the `key_range` window and yield the pk of every
record whose value byte is `'+'`. -/
def iterLookupKeys (env : List Rec) (endCommit? startCommit? : Option Nat)
    (startValue : Bytes) (endValue? : Option Bytes) : List Nat :=
  let r := indexKeyRange startValue endValue?
  (rdsIterItems env (some r.1) (some r.2) endCommit? startCommit?).filterMap
    (fun t => if t.2.2 == PLUS then some (indexPkOf t.1) else none)

/-! ## Well-formedness of a revision-store environment and the spec-side
descriptions the claims compare against -/

/-- The strict key order on records. -/
def keyLtRel (e e' : Rec) : Prop := lexLt e.key e'.key = true

instance : IsTrans Rec keyLtRel := ⟨fun _ _ _ => lexLt_trans⟩

instance (e e' : Rec) : Decidable (keyLtRel e e') :=
  inferInstanceAs (Decidable (lexLt e.key e'.key = true))

/-- Physical keys strictly ascending. -/
def envSorted (env : List Rec) : Prop := env.Chain' keyLtRel

/-- Executable check for `envSorted` (kernel-reducible, unlike the generic
`Chain'` instance). -/
def chainB : List Rec → Bool
  | [] => true
  | [_] => true
  | a :: b :: t => lexLt a.key b.key && chainB (b :: t)

theorem chainB_iff (l : List Rec) : chainB l = true ↔ l.Chain' keyLtRel := by
  induction l with
  | nil => simp [chainB]
  | cons a t ih =>
    cases t with
    | nil => simp [chainB]
    | cons b t' =>
      rw [List.chain'_cons]
      have h : chainB (a :: b :: t') = (lexLt a.key b.key && chainB (b :: t')) := rfl
      rw [h, Bool.and_eq_true, ih]
      exact Iff.rfl

/-- A well-formed record: at least the 4-byte revision suffix, bytes in
range, and a nonzero revision (revision slot `0` is the reserved
"pointer to latest" and is never a record revision). -/
def recWF (e : Rec) : Prop :=
  4 ≤ e.key.length ∧ (∀ b ∈ e.key, b < 256) ∧ revPart e.key ≠ [255, 255, 255, 255]

/-- Well-formed environment: sorted, well-formed records, and user keys
mutually prefix-free (which the codecs guarantee: fixed-width or
NUL-terminated encodings). -/
def envWF (env : List Rec) : Prop :=
  envSorted env ∧ (∀ e ∈ env, recWF e) ∧
    ∀ e ∈ env, ∀ e' ∈ env,
      userPart e.key ≠ userPart e'.key → ¬ userPart e.key <+: userPart e'.key

instance (e : Rec) : Decidable (recWF e) :=
  inferInstanceAs (Decidable (4 ≤ e.key.length ∧ (∀ b ∈ e.key, b < 256) ∧
    revPart e.key ≠ [255, 255, 255, 255]))

instance (env : List Rec) : Decidable (envSorted env) :=
  decidable_of_iff (chainB env = true) (chainB_iff env)

instance (env : List Rec) : Decidable (envWF env) :=
  inferInstanceAs (Decidable (envSorted env ∧ (∀ e ∈ env, recWF e) ∧
    ∀ e ∈ env, ∀ e' ∈ env,
      userPart e.key ≠ userPart e'.key → ¬ userPart e.key <+: userPart e'.key))

/-- The record holding "the value committed at the largest revision `R ≤ S`"
for user key `u`: a sorted environment lists each group newest revision
first, so it is the first record of `u` with revision `≤ S`. -/
def newestLE (env : List Rec) (u : Bytes) (S : Nat) : Option Rec :=
  (env.filter (fun e => userPart e.key == u && decide (revOf e.key ≤ S))).head?

/-- `e` is the newest record of user key `u` at or below revision `S`. -/
def isNewestVisible (env : List Rec) (u : Bytes) (S : Nat) (e : Rec) : Prop :=
  e ∈ env ∧ userPart e.key = u ∧ revOf e.key ≤ S ∧
    ∀ e' ∈ env, userPart e'.key = u → revOf e'.key ≤ S → revOf e'.key ≤ revOf e.key

instance (env : List Rec) (u : Bytes) (S : Nat) (e : Rec) :
    Decidable (isNewestVisible env u S e) :=
  inferInstanceAs (Decidable (e ∈ env ∧ userPart e.key = u ∧ revOf e.key ≤ S ∧
    ∀ e' ∈ env, userPart e'.key = u → revOf e'.key ≤ S → revOf e'.key ≤ revOf e.key))

/-- Adjacent deduplication (in a sorted environment each user key's records
are contiguous). -/
def dedupAdj : List Bytes → List Bytes
  | [] => []
  | [u] => [u]
  | u :: u' :: rest =>
    if u = u' then dedupAdj (u' :: rest) else u :: dedupAdj (u' :: rest)

/-- The distinct user keys of an environment, in ascending order. -/
def userKeys (env : List Rec) : List Bytes :=
  dedupAdj (env.map (fun e => userPart e.key))

/-- Whether user key `u` is at or after the requested start (an empty bound
is falsy, as in the source). -/
def startPass (startKey? : Option Bytes) (u : Bytes) : Bool :=
  match startKey? with
  | none => true
  | some sk => if sk.isEmpty then true else !lexLt u sk

/-- Whether user key `u` is strictly before the requested (exclusive) end. -/
def endPass (endKey? : Option Bytes) (u : Bytes) : Bool :=
  match endKey? with
  | none => true
  | some ek => if ek.isEmpty then true else lexLt u ek

/-- Whether user key `u` lies within the request window at the user-key
level. -/
def userInRange (startKey? endKey? : Option Bytes) (u : Bytes) : Bool :=
  startPass startKey? u && endPass endKey? u

/-- What user key `u` contributes to an `iter_items` scan: its newest record
with revision `≤ endR`, provided `u` is in the window and that record's
revision is `≥ startR`. -/
def specYield (env : List Rec) (startKey? endKey? : Option Bytes)
    (endR startR : Nat) (u : Bytes) : Option (Bytes × Bytes × Bytes) :=
  if userInRange startKey? endKey? u then
    match newestLE env u endR with
    | some e => if startR ≤ revOf e.key then some (u, revPart e.key, e.val) else none
    | none => none
  else none

/-- The contributions of the distinct user keys at positions `≥ i`. -/
def specFrom (env : List Rec) (startKey? endKey? : Option Bytes)
    (endR startR : Nat) (i : Nat) : List (Bytes × Bytes × Bytes) :=
  (dedupAdj ((env.drop i).map (fun e => userPart e.key))).filterMap
    (specYield env startKey? endKey? endR startR)

/-- The specification of `iter_items`: ascending distinct user keys within
the window, each yielding its newest record with revision `≤ endR` provided
that record's revision is `≥ startR`. -/
def specIterItems (env : List Rec) (startKey? endKey? : Option Bytes)
    (endR startR : Nat) : List (Bytes × Bytes × Bytes) :=
  (userKeys env).filterMap (specYield env startKey? endKey? endR startR)

/-! ## Cursor and environment lemmas -/

theorem keyAt_eq {env : List Rec} {i : Nat} (h : i < env.length) :
    keyAt env i = env[i].key := by
  unfold keyAt
  rw [List.getD_eq_getElem env default h]

theorem valAt_eq {env : List Rec} {i : Nat} (h : i < env.length) :
    valAt env i = env[i].val := by
  unfold valAt
  rw [List.getD_eq_getElem env default h]

theorem getD_mem {env : List Rec} {i : Nat} (h : i < env.length) :
    env.getD i default ∈ env := by
  rw [List.getD_eq_getElem env default h]
  exact List.getElem_mem h

theorem setRangeIdx_le_length (env : List Rec) (t : Bytes) :
    setRangeIdx env t ≤ env.length :=
  List.findIdx_le_length _

theorem setRangeIdx_before {env : List Rec} {t : Bytes} {j : Nat}
    (h : j < setRangeIdx env t) : lexLt (keyAt env j) t = true := by
  have hlen : j < env.length := lt_of_lt_of_le h (setRangeIdx_le_length env t)
  have hp := List.not_of_lt_findIdx h
  simp only [keyAt_eq hlen]
  simpa using hp

theorem setRangeIdx_found {env : List Rec} {t : Bytes}
    (h : setRangeIdx env t < env.length) :
    lexLt (keyAt env (setRangeIdx env t)) t = false := by
  have hp := List.findIdx_getElem (w := h)
  simp only [keyAt_eq h]
  simpa using hp

theorem setRangeIdx_eq {env : List Rec} {t : Bytes} {j : Nat} (hj : j ≤ env.length)
    (hbefore : ∀ l, l < j → lexLt (keyAt env l) t = true)
    (hat : j < env.length → lexLt (keyAt env j) t = false) :
    setRangeIdx env t = j := by
  rcases Nat.lt_trichotomy (setRangeIdx env t) j with h | h | h
  · have h1 := setRangeIdx_found (lt_of_lt_of_le h hj)
    have h2 := hbefore _ h
    rw [h1] at h2
    exact absurd h2 (by simp)
  · exact h
  · have hlen : j < env.length := lt_of_lt_of_le h (setRangeIdx_le_length env t)
    have h1 := setRangeIdx_before h
    have h2 := hat hlen
    rw [h2] at h1
    exact absurd h1 (by simp)

theorem envSorted_lt {env : List Rec} (hs : envSorted env) {i j : Nat}
    (hij : i < j) (hj : j < env.length) :
    lexLt (keyAt env i) (keyAt env j) = true := by
  have hp : env.Pairwise keyLtRel := List.chain'_iff_pairwise.mp hs
  have hi : i < env.length := lt_trans hij hj
  have := List.pairwise_iff_getElem.mp hp i j hi hj hij
  rw [keyAt_eq hi, keyAt_eq hj]
  exact this

/-- A cursor position whose key is below the target precedes the landing
position of `set_range(target)`. -/
theorem lt_setRangeIdx {env : List Rec} (hs : envSorted env) {t : Bytes} {i : Nat}
    (hi : i < env.length) (hk : lexLt (keyAt env i) t = true) :
    i < setRangeIdx env t := by
  by_contra hcon
  push_neg at hcon
  have hlen : setRangeIdx env t < env.length := lt_of_le_of_lt hcon hi
  have h1 := setRangeIdx_found hlen
  rcases Nat.lt_or_ge (setRangeIdx env t) i with h | h
  · have h2 := envSorted_lt hs h hi
    have h3 := lexLt_trans h2 hk
    rw [h1] at h3
    exact absurd h3 (by simp)
  · have : setRangeIdx env t = i := le_antisymm hcon h
    rw [this, hk] at h1
    exact absurd h1 (by simp)

/-! ## Physical-key structure lemmas -/

theorem userPart_append {u r4 : Bytes} (h : r4.length = 4) :
    userPart (u ++ r4) = u := by
  unfold userPart
  rw [List.length_append, h, Nat.add_sub_cancel]
  exact List.take_left u r4

theorem revPart_append {u r4 : Bytes} (h : r4.length = 4) :
    revPart (u ++ r4) = r4 := by
  unfold revPart
  rw [List.length_append, h, Nat.add_sub_cancel]
  exact List.drop_left u r4

theorem revPart_length {k : Bytes} (h : 4 ≤ k.length) : (revPart k).length = 4 := by
  unfold revPart
  rw [List.length_drop]
  omega

theorem key_decomp (k : Bytes) : userPart k ++ revPart k = k :=
  List.take_append_drop _ k

theorem beVal_lt {bs : Bytes} (hb : ∀ b ∈ bs, b < 256) :
    beVal bs < 256 ^ bs.length := by
  induction bs with
  | nil => simp [beVal]
  | cons x xs ih =>
    have hx : x < 256 := hb x (by simp)
    have hxs := ih (fun b h => hb b (by simp [h]))
    have h1 : x * 256 ^ xs.length + beVal xs < (x + 1) * 256 ^ xs.length := by
      have : (x + 1) * 256 ^ xs.length = x * 256 ^ xs.length + 256 ^ xs.length := by ring
      omega
    have h2 : (x + 1) * 256 ^ xs.length ≤ 256 * 256 ^ xs.length :=
      Nat.mul_le_mul_right _ hx
    have h3 : (256:Nat) * 256 ^ xs.length = 256 ^ (xs.length + 1) := by
      rw [pow_succ]; ring
    simp only [beVal, List.length_cons]
    omega

theorem beBytes_beVal {bs : Bytes} (hb : ∀ b ∈ bs, b < 256) :
    beBytes bs.length (beVal bs) = bs := by
  induction bs with
  | nil => rfl
  | cons x xs ih =>
    have hxs : beVal xs < 256 ^ xs.length := beVal_lt (fun b h => hb b (by simp [h]))
    have hdiv : (x * 256 ^ xs.length + beVal xs) / 256 ^ xs.length = x := by
      rw [mul_comm, Nat.mul_add_div (Nat.pos_pow_of_pos _ (by norm_num)),
        Nat.div_eq_of_lt hxs, Nat.add_zero]
    have hmod : (x * 256 ^ xs.length + beVal xs) % 256 ^ xs.length = beVal xs := by
      rw [mul_comm, Nat.mul_add_mod]
      exact Nat.mod_eq_of_lt hxs
    simp only [beVal, List.length_cons, beBytes, hdiv, hmod,
      ih (fun b h => hb b (by simp [h]))]

theorem packRev_zero : packRev 0 = [255, 255, 255, 255] := by decide

theorem revOf_le_max (k : Bytes) : revOf k ≤ maxU32 := Nat.sub_le _ _

theorem recWF.revPart_bytes {e : Rec} (h : recWF e) : ∀ b ∈ revPart e.key, b < 256 :=
  fun b hb => h.2.1 b (List.mem_of_mem_drop hb)

theorem recWF.beVal_revPart_le {e : Rec} (h : recWF e) :
    beVal (revPart e.key) ≤ maxU32 := by
  have := beVal_lt h.revPart_bytes
  rw [revPart_length h.1] at this
  unfold maxU32
  omega

theorem recWF.packRev_revOf {e : Rec} (h : recWF e) :
    packRev (revOf e.key) = revPart e.key := by
  unfold packRev revOf
  have hle := h.beVal_revPart_le
  have hback : maxU32 - (maxU32 - beVal (revPart e.key)) = beVal (revPart e.key) := by
    omega
  rw [hback, show (4:Nat) = (revPart e.key).length from (revPart_length h.1).symm,
    beBytes_beVal h.revPart_bytes]

theorem recWF.revOf_pos {e : Rec} (h : recWF e) : 1 ≤ revOf e.key := by
  by_contra hcon
  push_neg at hcon
  have h0 : revOf e.key = 0 := by omega
  have := h.packRev_revOf
  rw [h0, packRev_zero] at this
  exact h.2.2 this.symm

/-- Every well-formed key splits as `userPart ‖ packRev (revOf key)`. -/
theorem recWF.key_eq {e : Rec} (h : recWF e) :
    e.key = userPart e.key ++ packRev (revOf e.key) := by
  rw [h.packRev_revOf, key_decomp]

/-! ## Comparison helpers under well-formedness -/

/-- Comparisons between extensions of distinct user keys of a well-formed
environment are decided by the user keys alone (prefix-freeness). -/
theorem cross_user {env : List Rec} (hWF : envWF env) {e e' : Rec}
    (he : e ∈ env) (he' : e' ∈ env) (hne : userPart e.key ≠ userPart e'.key)
    (x y : Bytes) :
    lexLt (userPart e.key ++ x) (userPart e'.key ++ y) =
      lexLt (userPart e.key) (userPart e'.key) :=
  lexLt_append_of_disjoint (hWF.2.2 e he e' he' hne)
    (hWF.2.2 e' he' e he (Ne.symm hne)) x y

theorem revOf_append {u : Bytes} {r : Nat} (hr : r ≤ maxU32) :
    revOf (u ++ packRev r) = r := by
  unfold revOf
  rw [revPart_append (packRev_length r)]
  unfold packRev
  rw [beVal_beBytes (by unfold maxU32 at *; omega)]
  unfold maxU32 at *
  omega

/-- Comparing a well-formed key against its own user key extended by a packed
revision compares the revisions (inverted). -/
theorem key_cmp_same {e : Rec} (hw : recWF e) {X : Nat} (hX : X ≤ maxU32) :
    lexLt e.key (userPart e.key ++ packRev X) = decide (X < revOf e.key) := by
  rw [hw.key_eq, userPart_append (packRev_length _), lexLt_append_left,
    packRev_lt hX (revOf_le_max _), revOf_append (revOf_le_max _)]

theorem key_cmp_same' {e : Rec} (hw : recWF e) {X : Nat} (hX : X ≤ maxU32) :
    lexLt (userPart e.key ++ packRev X) e.key = decide (revOf e.key < X) := by
  rw [hw.key_eq, userPart_append (packRev_length _), lexLt_append_left,
    packRev_lt (revOf_le_max _) hX, revOf_append (revOf_le_max _)]

/-! ## First-match and deduplication helpers -/

theorem filter_head?_eq {α : Type} [Inhabited α] {l : List α} {p : α → Bool} {j : Nat}
    (hj : j < l.length) (hpj : p (l.getD j default) = true)
    (hbefore : ∀ i, i < j → p (l.getD i default) = false) :
    (l.filter p).head? = some (l.getD j default) := by
  induction l generalizing j with
  | nil => simp at hj
  | cons x xs ih =>
    cases j with
    | zero =>
      simp only [List.getD_cons_zero] at hpj ⊢
      rw [List.filter_cons, hpj]
      simp
    | succ j' =>
      have h0 := hbefore 0 (Nat.succ_pos j')
      simp only [List.getD_cons_zero] at h0
      simp only [List.getD_cons_succ] at hpj ⊢
      rw [List.filter_cons, h0]
      simp only [Bool.false_eq_true, if_false]
      exact ih (by simpa using hj) hpj
        (fun i hi => by
          have := hbefore (i + 1) (by omega)
          simpa using this)

theorem filter_head?_none {α : Type} {l : List α} {p : α → Bool}
    (h : ∀ e ∈ l, p e = false) : (l.filter p).head? = none := by
  have : l.filter p = [] := by
    rw [List.filter_eq_nil_iff]
    intro a ha
    simp [h a ha]
  rw [this]
  rfl

theorem dedupAdj_cons_self (u : Bytes) (l : List Bytes) :
    dedupAdj (u :: u :: l) = dedupAdj (u :: l) := by
  simp [dedupAdj]

theorem dedupAdj_cons_ne {u u' : Bytes} (h : u ≠ u') (l : List Bytes) :
    dedupAdj (u :: u' :: l) = u :: dedupAdj (u' :: l) := by
  simp [dedupAdj, h]

theorem mem_of_mem_dedupAdj : ∀ {l : List Bytes} {x : Bytes}, x ∈ dedupAdj l → x ∈ l
  | [], x, h => by simp [dedupAdj] at h
  | [u], x, h => by simpa [dedupAdj] using h
  | u :: u' :: rest, x, h => by
    by_cases he : u = u'
    · subst he
      rw [dedupAdj_cons_self] at h
      have := mem_of_mem_dedupAdj h
      simp only [List.mem_cons] at this ⊢
      tauto
    · rw [dedupAdj_cons_ne he] at h
      rcases List.mem_cons.mp h with rfl | h
      · simp
      · have := mem_of_mem_dedupAdj h
        simp only [List.mem_cons] at this ⊢
        tauto

theorem dedupAdj_group {u : Bytes} {rest : List Bytes} :
    ∀ k, 0 < k → (∀ v, rest.head? = some v → v ≠ u) →
    dedupAdj (List.replicate k u ++ rest) = u :: dedupAdj rest := by
  intro k
  induction k with
  | zero => omega
  | succ k ih =>
    intro _ hhead
    cases k with
    | zero =>
      simp only [List.replicate_succ, List.replicate_zero, List.nil_append,
        List.cons_append, List.nil_append]
      cases rest with
      | nil => rfl
      | cons v rest' =>
        exact (dedupAdj_cons_ne (Ne.symm (hhead v rfl)) rest').symm ▸ rfl
    | succ k' =>
      have hrec := ih (Nat.succ_pos k') hhead
      rw [List.replicate_succ, List.cons_append]
      have hshape : List.replicate (k' + 1) u ++ rest = u :: (List.replicate k' u ++ rest) := by
        rw [List.replicate_succ, List.cons_append]
      rw [hshape, dedupAdj_cons_self, ← hshape, hrec]

theorem dedupAdj_append {l1 l2 : List Bytes}
    (h : ∀ x y, l1.getLast? = some x → l2.head? = some y → x ≠ y) :
    dedupAdj (l1 ++ l2) = dedupAdj l1 ++ dedupAdj l2 := by
  induction l1 with
  | nil => simp [dedupAdj]
  | cons u rest ih =>
    cases rest with
    | nil =>
      cases l2 with
      | nil => simp [dedupAdj]
      | cons v l2' =>
        have hne : u ≠ v := h u v rfl rfl
        simp only [List.singleton_append, dedupAdj_cons_ne hne]
        rfl
    | cons u' rest' =>
      have hlast : ∀ x y, (u' :: rest').getLast? = some x → l2.head? = some y → x ≠ y := by
        intro x y hx hy
        refine h x y ?_ hy
        rw [List.getLast?_cons_cons]
        exact hx
      by_cases he : u = u'
      · subst he
        simp only [List.cons_append]
        rw [dedupAdj_cons_self]
        have := ih hlast
        simp only [List.cons_append] at this
        rw [this, dedupAdj_cons_self]
      · simp only [List.cons_append]
        rw [dedupAdj_cons_ne he, dedupAdj_cons_ne he]
        have := ih hlast
        simp only [List.cons_append] at this
        rw [this]
        rfl

/-! ## Group structure of a well-formed environment -/

/-- Position `i` is the first record of its user key. -/
def groupStart (env : List Rec) (i : Nat) : Prop :=
  ∀ l, l < i → userPart (keyAt env l) ≠ userPart (keyAt env i)

/-- The cursor target `user_key ++ '\xFF\xFF\xFF\xFF'` lands at the first
record past the current user key's group. -/
def groupEnd (env : List Rec) (i : Nat) : Nat :=
  setRangeIdx env (userPart (keyAt env i) ++ [255, 255, 255, 255])

theorem recWF_at {env : List Rec} (hWF : envWF env) {i : Nat} (hi : i < env.length) :
    recWF (env.getD i default) :=
  hWF.2.1 _ (getD_mem hi)

theorem keyAt_def (env : List Rec) (i : Nat) : keyAt env i = (env.getD i default).key := rfl

/-- Within a group (equal user keys), later records carry strictly smaller
revisions. -/
theorem rev_desc {env : List Rec} (hWF : envWF env) {i j : Nat} (hij : i < j)
    (hj : j < env.length)
    (hsame : userPart (keyAt env i) = userPart (keyAt env j)) :
    revOf (keyAt env j) < revOf (keyAt env i) := by
  have hi : i < env.length := lt_trans hij hj
  have hs := envSorted_lt hWF.1 hij hj
  have hwi := recWF_at hWF hi
  have hwj := recWF_at hWF hj
  have hkey : keyAt env j = userPart (keyAt env i) ++ packRev (revOf (keyAt env j)) := by
    rw [hsame]
    exact hwj.key_eq
  rw [hkey, keyAt_def env i, key_cmp_same hwi (revOf_le_max _)] at hs
  rw [keyAt_def env i]
  simpa using hs

theorem groupEnd_le (env : List Rec) (i : Nat) : groupEnd env i ≤ env.length :=
  setRangeIdx_le_length _ _

/-- A group key is below the group-end target. -/
theorem key_lt_groupEnd_target {env : List Rec} (hWF : envWF env) {i j : Nat}
    (_hi : i < env.length) (hj : j < env.length)
    (hsame : userPart (keyAt env j) = userPart (keyAt env i)) :
    lexLt (keyAt env j) (userPart (keyAt env i) ++ [255, 255, 255, 255]) = true := by
  have hwj := recWF_at hWF hj
  rw [← packRev_zero, ← hsame, keyAt_def env j, key_cmp_same hwj (by unfold maxU32; omega)]
  simpa using hwj.revOf_pos

theorem groupEnd_gt {env : List Rec} (hWF : envWF env) {i : Nat} (hi : i < env.length) :
    i < groupEnd env i :=
  lt_setRangeIdx hWF.1 hi (key_lt_groupEnd_target hWF hi hi rfl)

/-- Every record between a position and its group end shares its user key. -/
theorem group_user_eq {env : List Rec} (hWF : envWF env) {i j : Nat}
    (hi : i < env.length) (hij : i ≤ j) (hj : j < groupEnd env i) :
    userPart (keyAt env j) = userPart (keyAt env i) := by
  have hjlen : j < env.length := lt_of_lt_of_le hj (groupEnd_le env i)
  by_contra hne
  have hbefore := setRangeIdx_before hj
  have hcross : lexLt (keyAt env j) (userPart (keyAt env i) ++ [255, 255, 255, 255]) =
      lexLt (userPart (keyAt env j)) (userPart (keyAt env i)) := by
    conv_lhs => rw [← key_decomp (keyAt env j)]
    exact cross_user hWF (getD_mem hjlen) (getD_mem hi) hne _ _
  rw [hcross] at hbefore
  rcases Nat.lt_or_ge i j with hlt | hge
  · have hsorted := envSorted_lt hWF.1 hlt hjlen
    have hc2 : lexLt (keyAt env i) (keyAt env j) =
        lexLt (userPart (keyAt env i)) (userPart (keyAt env j)) := by
      conv_lhs => rw [← key_decomp (keyAt env i), ← key_decomp (keyAt env j)]
      exact cross_user hWF (getD_mem hi) (getD_mem hjlen) (Ne.symm hne) _ _
    rw [hc2] at hsorted
    have := lexLt_asymm hsorted
    rw [hbefore] at this
    exact absurd this (by simp)
  · have : j = i := by omega
    exact hne (by rw [this])

/-- Every record at or past the group end has a strictly larger user key. -/
theorem group_after {env : List Rec} (hWF : envWF env) {i j : Nat}
    (hi : i < env.length) (hj : groupEnd env i ≤ j) (hjlen : j < env.length) :
    lexLt (userPart (keyAt env i)) (userPart (keyAt env j)) = true := by
  have he0 : groupEnd env i < env.length := lt_of_le_of_lt hj hjlen
  have hfound : lexLt (keyAt env (groupEnd env i))
      (userPart (keyAt env i) ++ [255, 255, 255, 255]) = false := setRangeIdx_found he0
  have hjge : lexLt (keyAt env j) (userPart (keyAt env i) ++ [255, 255, 255, 255]) = false := by
    rcases Nat.lt_or_ge (groupEnd env i) j with hlt | hge
    · by_contra hcon
      have hcon' : lexLt (keyAt env j) (userPart (keyAt env i) ++ [255, 255, 255, 255]) = true := by
        cases h : lexLt (keyAt env j) (userPart (keyAt env i) ++ [255, 255, 255, 255])
        · exact absurd h hcon
        · rfl
      have hsorted := envSorted_lt hWF.1 hlt hjlen
      have := lexLt_trans hsorted hcon'
      rw [hfound] at this
      exact absurd this (by simp)
    · have : j = groupEnd env i := by omega
      rw [this]
      exact hfound
  have hne : userPart (keyAt env j) ≠ userPart (keyAt env i) := by
    intro hsame
    rw [key_lt_groupEnd_target hWF hi hjlen hsame] at hjge
    exact absurd hjge (by simp)
  have hcross : lexLt (keyAt env j) (userPart (keyAt env i) ++ [255, 255, 255, 255]) =
      lexLt (userPart (keyAt env j)) (userPart (keyAt env i)) := by
    conv_lhs => rw [← key_decomp (keyAt env j)]
    exact cross_user hWF (getD_mem hjlen) (getD_mem hi) hne _ _
  rw [hcross] at hjge
  exact lexLt_of_ne_of_not_lt hne hjge

/-- The group end is itself a group start. -/
theorem groupEnd_groupStart {env : List Rec} (hWF : envWF env) {i : Nat}
    (hi : i < env.length) (h0 : groupEnd env i < env.length) :
    groupStart env (groupEnd env i) := by
  intro l hl
  have hllen : l < env.length := lt_trans hl h0
  have hafter := group_after hWF hi (le_refl _) h0
  intro hsame
  rcases Nat.lt_or_ge l i with hli | hli
  · have hne : userPart (keyAt env l) ≠ userPart (keyAt env i) := by
      intro he
      rw [← hsame, he] at hafter
      rw [lexLt_irrefl] at hafter
      exact absurd hafter (by simp)
    have hsorted := envSorted_lt hWF.1 hli hi
    have hc : lexLt (keyAt env l) (keyAt env i) =
        lexLt (userPart (keyAt env l)) (userPart (keyAt env i)) := by
      conv_lhs => rw [← key_decomp (keyAt env l), ← key_decomp (keyAt env i)]
      exact cross_user hWF (getD_mem hllen) (getD_mem hi) hne _ _
    rw [hc, hsame] at hsorted
    have := lexLt_asymm hafter
    rw [hsorted] at this
    exact absurd this (by simp)
  · have := group_user_eq hWF hi hli hl
    rw [this] at hsame
    rw [← hsame] at hafter
    rw [lexLt_irrefl] at hafter
    exact absurd hafter (by simp)

/-- Records before a group start are below any extension of the group's user
key. -/
theorem before_group_lt {env : List Rec} (hWF : envWF env) {i l : Nat}
    (hi : i < env.length) (hl : l < i) (hgs : groupStart env i) (x : Bytes) :
    lexLt (keyAt env l) (userPart (keyAt env i) ++ x) = true := by
  have hllen : l < env.length := lt_trans hl hi
  have hne := hgs l hl
  have hcross : lexLt (keyAt env l) (userPart (keyAt env i) ++ x) =
      lexLt (userPart (keyAt env l)) (userPart (keyAt env i)) := by
    conv_lhs => rw [← key_decomp (keyAt env l)]
    exact cross_user hWF (getD_mem hllen) (getD_mem hi) hne _ _
  have hsorted := envSorted_lt hWF.1 hl hi
  have hc2 : lexLt (keyAt env l) (keyAt env i) =
      lexLt (userPart (keyAt env l)) (userPart (keyAt env i)) := by
    conv_lhs => rw [← key_decomp (keyAt env l), ← key_decomp (keyAt env i)]
    exact cross_user hWF (getD_mem hllen) (getD_mem hi) hne _ _
  rw [hcross, ← hc2]
  exact hsorted

/-- Comparing a group record against the group's user key extended by a
packed revision compares revisions. -/
theorem in_group_cmp {env : List Rec} (hWF : envWF env) {i l : Nat}
    (hi : i < env.length) (hil : i ≤ l) (hle : l < groupEnd env i)
    {X : Nat} (hX : X ≤ maxU32) :
    lexLt (keyAt env l) (userPart (keyAt env i) ++ packRev X) =
      decide (X < revOf (keyAt env l)) := by
  have hllen : l < env.length := lt_of_lt_of_le hle (groupEnd_le env i)
  have hsame := group_user_eq hWF hi hil hle
  rw [← hsame, keyAt_def env l, key_cmp_same (recWF_at hWF hllen) hX]

/-- Records at or past the group end are not below any revision extension of
the group's user key. -/
theorem after_group_not_lt {env : List Rec} (hWF : envWF env) {i l : Nat}
    (hi : i < env.length) (hl : groupEnd env i ≤ l) (hllen : l < env.length)
    (x : Bytes) :
    lexLt (keyAt env l) (userPart (keyAt env i) ++ x) = false := by
  have hafter := group_after hWF hi hl hllen
  have hne : userPart (keyAt env l) ≠ userPart (keyAt env i) := by
    intro he
    rw [← he, lexLt_irrefl] at hafter
    exact absurd hafter (by simp)
  have hcross : lexLt (keyAt env l) (userPart (keyAt env i) ++ x) =
      lexLt (userPart (keyAt env l)) (userPart (keyAt env i)) := by
    conv_lhs => rw [← key_decomp (keyAt env l)]
    exact cross_user hWF (getD_mem hllen) (getD_mem hi) hne _ _
  rw [hcross]
  exact lexLt_asymm hafter

/-- When the group has a record with revision `≤ endR` (first such at `j`),
`newestLE` finds it and `set_range(user_key ++ pack(endR))` lands on it. -/
theorem newest_some {env : List Rec} (hWF : envWF env) {i j endR : Nat}
    (hendR : endR ≤ maxU32) (hi : i < env.length) (hgs : groupStart env i)
    (hij : i ≤ j) (hje : j < groupEnd env i)
    (hvis : revOf (keyAt env j) ≤ endR)
    (hfirst : ∀ l, i ≤ l → l < j → endR < revOf (keyAt env l)) :
    newestLE env (userPart (keyAt env i)) endR = some (env.getD j default) ∧
      setRangeIdx env (userPart (keyAt env i) ++ packRev endR) = j := by
  have hjlen : j < env.length := lt_of_lt_of_le hje (groupEnd_le env i)
  have hsame := group_user_eq hWF hi hij hje
  constructor
  · apply filter_head?_eq hjlen
    · simp only [Bool.and_eq_true, beq_iff_eq, decide_eq_true_eq]
      exact ⟨by rw [← keyAt_def]; exact hsame, by rw [← keyAt_def]; exact hvis⟩
    · intro l hl
      rcases Nat.lt_or_ge l i with hli | hli
      · have := hgs l hli
        simp only [Bool.and_eq_false_iff, beq_eq_false_iff_ne, ne_eq]
        exact Or.inl (by rw [← keyAt_def]; exact this)
      · have hrev := hfirst l hli hl
        simp only [Bool.and_eq_false_iff, decide_eq_false_iff_not, not_le]
        exact Or.inr (by rw [← keyAt_def]; exact hrev)
  · apply setRangeIdx_eq (le_of_lt hjlen)
    · intro l hl
      rcases Nat.lt_or_ge l i with hli | hli
      · exact before_group_lt hWF hi hli hgs _
      · rw [in_group_cmp hWF hi hli (lt_trans hl hje) hendR]
        simpa using hfirst l hli hl
    · intro _
      rw [in_group_cmp hWF hi hij hje hendR]
      simpa using hvis

/-- When the group has no record with revision `≤ endR`, `newestLE` is empty
and `set_range(user_key ++ pack(endR))` lands at the group end. -/
theorem newest_none {env : List Rec} (hWF : envWF env) {i endR : Nat}
    (hendR : endR ≤ maxU32) (hi : i < env.length) (hgs : groupStart env i)
    (hnone : ∀ l, i ≤ l → l < groupEnd env i → endR < revOf (keyAt env l)) :
    newestLE env (userPart (keyAt env i)) endR = none ∧
      setRangeIdx env (userPart (keyAt env i) ++ packRev endR) = groupEnd env i := by
  constructor
  · apply filter_head?_none
    intro e he
    obtain ⟨l, hllen, hel⟩ := List.mem_iff_getElem.mp he
    have heD : env.getD l default = e := by
      rw [List.getD_eq_getElem env default hllen]
      exact hel
    rcases Nat.lt_or_ge l i with hli | hli
    · have := hgs l hli
      simp only [Bool.and_eq_false_iff, beq_eq_false_iff_ne, ne_eq]
      exact Or.inl (by rw [← heD, ← keyAt_def]; exact this)
    · rcases Nat.lt_or_ge l (groupEnd env i) with hle | hle
      · have hrev := hnone l hli hle
        simp only [Bool.and_eq_false_iff, decide_eq_false_iff_not, not_le]
        exact Or.inr (by rw [← heD, ← keyAt_def]; exact hrev)
      · have hafter := group_after hWF hi hle hllen
        have hne : userPart (keyAt env l) ≠ userPart (keyAt env i) := by
          intro h
          rw [← h, lexLt_irrefl] at hafter
          exact absurd hafter (by simp)
        simp only [Bool.and_eq_false_iff, beq_eq_false_iff_ne, ne_eq]
        exact Or.inl (by rw [← heD, ← keyAt_def]; exact hne)
  · apply setRangeIdx_eq (groupEnd_le env i)
    · intro l hl
      rcases Nat.lt_or_ge l i with hli | hli
      · exact before_group_lt hWF hi hli hgs _
      · rw [in_group_cmp hWF hi hli hl hendR]
        simpa using hnone l hli hl
    · intro he0
      exact after_group_not_lt hWF hi (le_refl _) he0 _

/-! ## Reduction lemmas for the `iter_items` loop -/

theorem rdsIterLoop_nil {env : List Rec} {endKey? : Option Bytes} {first last : Bytes}
    {i : Nat} (h : env.length ≤ i) :
    ∀ fuel, rdsIterLoop env endKey? first last fuel i = [] := by
  intro fuel
  cases fuel with
  | zero => rfl
  | succ f =>
    simp only [rdsIterLoop]
    rw [if_neg (by omega)]

theorem specFrom_nil {env : List Rec} {startKey? endKey? : Option Bytes}
    {endR startR i : Nat} (h : env.length ≤ i) :
    specFrom env startKey? endKey? endR startR i = [] := by
  unfold specFrom
  rw [List.drop_eq_nil_of_le h]
  rfl

theorem drop_group_decomp {env : List Rec} {u : Bytes} :
    ∀ k i, i + k ≤ env.length →
    (∀ j, i ≤ j → j < i + k → userPart (keyAt env j) = u) →
    (env.drop i).map (fun e => userPart e.key) =
      List.replicate k u ++ (env.drop (i + k)).map (fun e => userPart e.key) := by
  intro k
  induction k with
  | zero => intro i _ _; simp
  | succ k ih =>
    intro i hle hu
    have hilen : i < env.length := by omega
    rw [List.drop_eq_getElem_cons hilen, List.map_cons]
    have hui : userPart env[i].key = u := by
      rw [← keyAt_eq hilen]
      exact hu i le_rfl (by omega)
    have hrec := ih (i + 1) (by omega) (fun j hj1 hj2 => hu j (by omega) (by omega))
    rw [hui, hrec, List.replicate_succ, List.cons_append]
    have : i + 1 + k = i + (k + 1) := by omega
    rw [this]

/-- Splitting the spec at a group: the group's user key contributes its
yield, then the rest of the environment follows from the group end. -/
theorem specFrom_step {env : List Rec} (hWF : envWF env)
    {startKey? endKey? : Option Bytes} {endR startR : Nat} {i : Nat}
    (hi : i < env.length) :
    specFrom env startKey? endKey? endR startR i =
      (match specYield env startKey? endKey? endR startR (userPart (keyAt env i)) with
       | some t => t :: specFrom env startKey? endKey? endR startR (groupEnd env i)
       | none => specFrom env startKey? endKey? endR startR (groupEnd env i)) := by
  have hgt := groupEnd_gt hWF hi
  have hle := groupEnd_le env i
  have hdecomp := @drop_group_decomp env (userPart (keyAt env i))
    (groupEnd env i - i) i (by omega)
    (fun j hj1 hj2 => group_user_eq hWF hi hj1 (by omega))
  have hiplus : i + (groupEnd env i - i) = groupEnd env i := by omega
  rw [hiplus] at hdecomp
  have hhead : ∀ v, ((env.drop (groupEnd env i)).map (fun e => userPart e.key)).head? =
      some v → v ≠ userPart (keyAt env i) := by
    intro v hv
    rw [List.head?_map, List.head?_drop] at hv
    by_cases he0 : groupEnd env i < env.length
    · rw [List.getElem?_eq_getElem he0] at hv
      have hv' : userPart (keyAt env (groupEnd env i)) = v := by
        rw [keyAt_eq he0]
        simpa using hv
      have hafter := group_after hWF hi (le_refl _) he0
      intro heq
      rw [hv', heq, lexLt_irrefl] at hafter
      exact absurd hafter (by simp)
    · rw [List.getElem?_eq_none (by omega)] at hv
      simp at hv
  unfold specFrom
  rw [hdecomp, dedupAdj_group (groupEnd env i - i) (by omega) hhead,
    List.filterMap_cons]
  cases specYield env startKey? endKey? endR startR (userPart (keyAt env i)) <;> rfl

/-- If the current group's user key is at or past a (truthy, aligned) end
bound, nothing at or after it contributes. -/
theorem specFrom_nil_of_endfail {env : List Rec} (hWF : envWF env)
    {startKey? : Option Bytes} {endR startR : Nat} {i : Nat} (hi : i < env.length)
    {ek : Bytes} (hne : ek.isEmpty = false)
    (hfail : lexLt (userPart (keyAt env i)) ek = false) :
    specFrom env startKey? (some ek) endR startR i = [] := by
  unfold specFrom
  rw [List.filterMap_eq_nil_iff]
  intro u hu
  have hmem := mem_of_mem_dedupAdj hu
  obtain ⟨e, he, heq⟩ := List.mem_map.mp hmem
  obtain ⟨l, hllen, hel⟩ := List.mem_iff_getElem.mp he
  have hlen2 : i + l < env.length := by
    have := List.length_drop i env
    omega
  have hkey : userPart (keyAt env (i + l)) = u := by
    rw [keyAt_eq hlen2, ← List.getElem_drop env (h := by omega)]
    rw [hel, heq]
  have hufail : lexLt u ek = false := by
    rcases Nat.lt_or_ge (i + l) (groupEnd env i) with hcase | hcase
    · have := group_user_eq hWF hi (by omega) hcase
      rw [hkey] at this
      rw [← this] at hfail
      exact hfail
    · have hafter := group_after hWF hi hcase hlen2
      rw [hkey] at hafter
      by_contra hcon
      have hcon' : lexLt u ek = true := by
        cases h : lexLt u ek
        · exact absurd h hcon
        · rfl
      have := lexLt_trans hafter hcon'
      rw [hfail] at this
      exact absurd this (by simp)
  unfold specYield userInRange endPass
  simp [hne, hufail]

/-- `endKeyHit` at a group record is the negation of the user-level end
test, given the alignment of the end bound. -/
theorem endKeyHit_char {env : List Rec} {endKey? : Option Bytes}
    (hend : ∀ ek, endKey? = some ek → ek.isEmpty = false → ∀ e ∈ env,
      lexLt ek e.key = !lexLt (userPart e.key) ek)
    {j : Nat} (hj : j < env.length) :
    endKeyHit endKey? (keyAt env j) = !endPass endKey? (userPart (keyAt env j)) := by
  cases endKey? with
  | none => simp [endKeyHit, endPass]
  | some ek =>
    by_cases hempty : ek.isEmpty = true
    · simp [endKeyHit, endPass, hempty]
    · have hempty' : ek.isEmpty = false := by simpa using hempty
      have halign := hend ek rfl hempty' _ (getD_mem hj)
      rw [← keyAt_def] at halign
      simp [endKeyHit, endPass, hempty', halign]

theorem skipResolve_noskip {env : List Rec} (hWF : envWF env) {i endR : Nat}
    (hendR : endR ≤ maxU32) (hi : i < env.length)
    (hA : revOf (keyAt env i) ≤ endR) :
    skipResolve env (packRev endR) i = .proceed i := by
  have hw := recWF_at hWF hi
  have hcond : lexLt (revPart (keyAt env i)) (packRev endR) = false := by
    rw [keyAt_def, ← hw.packRev_revOf, packRev_lt hendR (revOf_le_max _)]
    simp only [decide_eq_false_iff_not, not_lt]
    exact hA
  simp [skipResolve, hcond]

theorem skip_cond_true {env : List Rec} (hWF : envWF env) {i endR : Nat}
    (hendR : endR ≤ maxU32) (hi : i < env.length)
    (hB : endR < revOf (keyAt env i)) :
    lexLt (revPart (keyAt env i)) (packRev endR) = true := by
  have hw := recWF_at hWF hi
  rw [keyAt_def, ← hw.packRev_revOf, packRev_lt hendR (revOf_le_max _),
    ← keyAt_def env i]
  simpa using hB

theorem skipResolve_proceed {env : List Rec} (hWF : envWF env) {i endR j : Nat}
    (hendR : endR ≤ maxU32) (hi : i < env.length)
    (hB : endR < revOf (keyAt env i))
    (hsr : setRangeIdx env (userPart (keyAt env i) ++ packRev endR) = j)
    (hjlen : j < env.length)
    (hsame : userPart (keyAt env j) = userPart (keyAt env i)) :
    skipResolve env (packRev endR) i = .proceed j := by
  have hcond := skip_cond_true hWF hendR hi hB
  simp only [skipResolve, hcond, if_true, hsr]
  rw [if_pos hjlen, hsame, if_neg (by simp [lexLt_irrefl])]

theorem skipResolve_cont {env : List Rec} (hWF : envWF env) {i endR j : Nat}
    (hendR : endR ≤ maxU32) (hi : i < env.length)
    (hB : endR < revOf (keyAt env i))
    (hsr : setRangeIdx env (userPart (keyAt env i) ++ packRev endR) = j)
    (hjlen : j < env.length)
    (hgt : lexLt (userPart (keyAt env i)) (userPart (keyAt env j)) = true) :
    skipResolve env (packRev endR) i = .cont j := by
  have hcond := skip_cond_true hWF hendR hi hB
  simp only [skipResolve, hcond, if_true, hsr]
  rw [if_pos hjlen, if_pos hgt]

theorem skipResolve_stop {env : List Rec} (hWF : envWF env) {i endR j : Nat}
    (hendR : endR ≤ maxU32) (hi : i < env.length)
    (hB : endR < revOf (keyAt env i))
    (hsr : setRangeIdx env (userPart (keyAt env i) ++ packRev endR) = j)
    (hjlen : env.length ≤ j) :
    skipResolve env (packRev endR) i = .stop := by
  have hcond := skip_cond_true hWF hendR hi hB
  simp only [skipResolve, hcond, if_true, hsr]
  rw [if_neg (by omega)]

/-- One loop iteration in the `proceed` case: the found record is the group's
newest visible one; the iteration emits its contribution and the loop resumes
at the group end. -/
theorem loop_proceed_eq {env : List Rec} (hWF : envWF env)
    {startKey? endKey? : Option Bytes} {endR startR : Nat} {f i p : Nat}
    (hstartR : startR ≤ maxU32)
    (hend : ∀ ek, endKey? = some ek → ek.isEmpty = false → ∀ e ∈ env,
      lexLt ek e.key = !lexLt (userPart e.key) ek)
    (hi : i < env.length) (hip : i ≤ p) (hpe : p < groupEnd env i)
    (hskip : skipResolve env (packRev endR) i = .proceed p)
    (hnewest : newestLE env (userPart (keyAt env i)) endR = some (env.getD p default))
    (hsp : startPass startKey? (userPart (keyAt env i)) = true)
    (hrest : rdsIterLoop env endKey? (packRev endR) (packRev startR) f (groupEnd env i) =
      specFrom env startKey? endKey? endR startR (groupEnd env i)) :
    rdsIterLoop env endKey? (packRev endR) (packRev startR) (f + 1) i =
      specFrom env startKey? endKey? endR startR i := by
  have hplen : p < env.length := lt_of_lt_of_le hpe (groupEnd_le env i)
  have hsame := group_user_eq hWF hi hip hpe
  have hwp := recWF_at hWF hplen
  simp only [rdsIterLoop, if_pos hi, hskip]
  by_cases hhit : endKeyHit endKey? (keyAt env p) = true
  · rw [if_pos hhit]
    have hchar := endKeyHit_char hend hplen
    rw [hhit] at hchar
    have hpass : endPass endKey? (userPart (keyAt env p)) = false := by
      cases h : endPass endKey? (userPart (keyAt env p))
      · rfl
      · rw [h] at hchar; exact absurd hchar.symm (by simp)
    cases hek : endKey? with
    | none => rw [hek] at hpass; simp [endPass] at hpass
    | some ek =>
      rw [hek] at hpass
      by_cases hempty : ek.isEmpty = true
      · simp [endPass, hempty] at hpass
      · have hempty' : ek.isEmpty = false := by simpa using hempty
        have hfail : lexLt (userPart (keyAt env p)) ek = false := by
          simpa [endPass, hempty'] using hpass
        rw [hsame] at hfail
        exact (specFrom_nil_of_endfail hWF hi hempty' hfail).symm
  · have hhit' : endKeyHit endKey? (keyAt env p) = false := by
      cases h : endKeyHit endKey? (keyAt env p)
      · rfl
      · exact absurd h hhit
    rw [if_neg (by rw [hhit']; simp)]
    have hchar := endKeyHit_char hend hplen
    rw [hhit'] at hchar
    have hpass : endPass endKey? (userPart (keyAt env p)) = true := by
      cases h : endPass endKey? (userPart (keyAt env p))
      · rw [h] at hchar; exact absurd hchar.symm (by simp)
      · rfl
    have htarget : setRangeIdx env (userPart (keyAt env p) ++ [255, 255, 255, 255]) =
        groupEnd env i := by
      unfold groupEnd
      rw [hsame]
    rw [htarget, hrest]
    have hyieldcond : lexLt (packRev startR) (revPart (keyAt env p)) =
        decide (revOf (keyAt env p) < startR) := by
      rw [keyAt_def, ← hwp.packRev_revOf, packRev_lt (revOf_le_max _) hstartR]
    have hinr : userInRange startKey? endKey? (userPart (keyAt env i)) = true := by
      unfold userInRange
      rw [hsp, ← hsame, hpass]
      rfl
    have hspecYield : specYield env startKey? endKey? endR startR (userPart (keyAt env i)) =
        (if startR ≤ revOf (keyAt env p) then
          some (userPart (keyAt env i), revPart (keyAt env p), valAt env p) else none) := by
      unfold specYield
      rw [if_pos hinr, hnewest]
      rfl
    rw [specFrom_step hWF hi, hspecYield, hyieldcond]
    by_cases hyield : startR ≤ revOf (keyAt env p)
    · rw [if_neg (by simp only [decide_eq_true_eq]; omega), if_pos hyield, hsame]
    · rw [if_pos (by simp only [decide_eq_true_eq]; omega), if_neg hyield]

/-- The cursor loop of `iter_items`, entered at a group start with enough
fuel, produces exactly the per-group newest-visible records. -/
theorem rdsIterLoop_eq {env : List Rec} (hWF : envWF env)
    {startKey? endKey? : Option Bytes} {endR startR : Nat}
    (hendR : endR ≤ maxU32) (hstartR : startR ≤ maxU32)
    (hend : ∀ ek, endKey? = some ek → ek.isEmpty = false → ∀ e ∈ env,
      lexLt ek e.key = !lexLt (userPart e.key) ek) :
    ∀ fuel i, env.length - i < fuel → groupStart env i →
      (∀ j, i ≤ j → j < env.length →
        startPass startKey? (userPart (keyAt env j)) = true) →
      rdsIterLoop env endKey? (packRev endR) (packRev startR) fuel i =
        specFrom env startKey? endKey? endR startR i := by
  intro fuel
  induction fuel with
  | zero => intro i h _ _; omega
  | succ f ih =>
    intro i hfuel hgs hsp
    by_cases hi : i < env.length
    case neg =>
      rw [rdsIterLoop_nil (by omega) _, specFrom_nil (by omega)]
    case pos =>
      have he0gt := groupEnd_gt hWF hi
      have he0le := groupEnd_le env i
      have hrest : rdsIterLoop env endKey? (packRev endR) (packRev startR) f
          (groupEnd env i) =
          specFrom env startKey? endKey? endR startR (groupEnd env i) := by
        by_cases he0 : groupEnd env i < env.length
        · exact ih (groupEnd env i) (by omega) (groupEnd_groupStart hWF hi he0)
            (fun j hj hjlen => hsp j (by omega) hjlen)
        · rw [rdsIterLoop_nil (by omega) _, specFrom_nil (by omega)]
      by_cases hA : revOf (keyAt env i) ≤ endR
      · have hnw := newest_some hWF hendR hi hgs (le_refl i) he0gt hA
          (fun l h1 h2 => by omega)
        exact loop_proceed_eq hWF hstartR hend hi (le_refl i) he0gt
          (skipResolve_noskip hWF hendR hi hA) hnw.1 (hsp i (le_refl i) hi) hrest
      · push_neg at hA
        by_cases hP : ∃ l, i ≤ l ∧ l < groupEnd env i ∧ revOf (keyAt env l) ≤ endR
        · have hPj := Nat.find_spec hP
          have hfirst : ∀ l, i ≤ l → l < Nat.find hP → endR < revOf (keyAt env l) := by
            intro l h1 h2
            have hmin := Nat.find_min hP h2
            push_neg at hmin
            exact hmin h1 (by omega)
          have hnw := newest_some hWF hendR hi hgs hPj.1 hPj.2.1 hPj.2.2 hfirst
          have hjlen : Nat.find hP < env.length := lt_of_lt_of_le hPj.2.1 he0le
          have hsame := group_user_eq hWF hi hPj.1 hPj.2.1
          exact loop_proceed_eq hWF hstartR hend hi hPj.1 hPj.2.1
            (skipResolve_proceed hWF hendR hi hA hnw.2 hjlen hsame) hnw.1
            (hsp i (le_refl i) hi) hrest
        · push_neg at hP
          have hnone : ∀ l, i ≤ l → l < groupEnd env i → endR < revOf (keyAt env l) :=
            fun l h1 h2 => hP l h1 h2
          have hnn := newest_none hWF hendR hi hgs hnone
          have hyield_none :
              specYield env startKey? endKey? endR startR (userPart (keyAt env i)) = none := by
            unfold specYield
            rw [hnn.1]
            by_cases h : userInRange startKey? endKey? (userPart (keyAt env i)) = true
            · rw [if_pos h]
            · rw [if_neg h]
          have hspec : specFrom env startKey? endKey? endR startR i =
              specFrom env startKey? endKey? endR startR (groupEnd env i) := by
            rw [specFrom_step hWF hi, hyield_none]
          by_cases he0 : groupEnd env i < env.length
          · have hcont := skipResolve_cont hWF hendR hi hA hnn.2 he0
              (group_after hWF hi (le_refl _) he0)
            simp only [rdsIterLoop, if_pos hi, hcont]
            rw [hspec]
            exact ih (groupEnd env i) (by omega) (groupEnd_groupStart hWF hi he0)
              (fun j hj hjlen => hsp j (by omega) hjlen)
          · have hstop := skipResolve_stop hWF hendR hi hA hnn.2 (by omega)
            simp only [rdsIterLoop, if_pos hi, hstop]
            rw [hspec, specFrom_nil (by omega)]

/-- Groups strictly before an aligned start position contribute nothing, so
the spec may begin at that position. -/
theorem specFrom_skip {env : List Rec} (hWF : envWF env)
    {startKey? endKey? : Option Bytes} {endR startR : Nat} {i0 : Nat}
    (hi0le : i0 ≤ env.length) (hgs0 : groupStart env i0)
    (hnone : ∀ l, l < i0 → l < env.length →
      startPass startKey? (userPart (keyAt env l)) = false) :
    ∀ k j, i0 - j ≤ k → groupStart env j → j ≤ i0 →
      specFrom env startKey? endKey? endR startR j =
        specFrom env startKey? endKey? endR startR i0 := by
  intro k
  induction k with
  | zero =>
    intro j hk _ hle
    have : j = i0 := by omega
    rw [this]
  | succ k ih =>
    intro j hk hgs hle
    rcases Nat.eq_or_lt_of_le hle with heq | hlt
    · rw [heq]
    · have hjlen : j < env.length := by omega
      have hyield : specYield env startKey? endKey? endR startR (userPart (keyAt env j)) = none := by
        unfold specYield userInRange
        rw [hnone j hlt hjlen]
        simp
      rw [specFrom_step hWF hjlen, hyield]
      have hje := groupEnd_gt hWF hjlen
      have hele := groupEnd_le env j
      have hei0 : groupEnd env j ≤ i0 := by
        by_contra hcon
        push_neg at hcon
        have hu := group_user_eq hWF hjlen (le_of_lt hlt) hcon
        exact hgs0 j hlt hu.symm
      rcases Nat.eq_or_lt_of_le hei0 with heq | hlt'
      · rw [heq]
      · have helen : groupEnd env j < env.length := by omega
        exact ih (groupEnd env j) (by omega) (groupEnd_groupStart hWF hjlen helen) hei0

/-- **`RevisionDataStore.iter_items` is the per-user-key newest-visible-record
scan**: over a well-formed environment with aligned key bounds, the cursor
algorithm yields, for every distinct user key in the window in ascending
order, exactly the record with the largest revision `≤ end_revision`, kept
only when that revision is `≥ start_revision`. -/
theorem rdsIterItems_eq {env : List Rec} (hWF : envWF env)
    {startKey? endKey? : Option Bytes} {endRevision? startRevision? : Option Nat}
    (hendR : pyOr endRevision? maxU32 ≤ maxU32)
    (hstartR : pyOr startRevision? 0 ≤ maxU32)
    (hstart : ∀ sk, startKey? = some sk → sk.isEmpty = false → ∀ e ∈ env,
      lexLt e.key sk = lexLt (userPart e.key) sk)
    (hend : ∀ ek, endKey? = some ek → ek.isEmpty = false → ∀ e ∈ env,
      lexLt ek e.key = !lexLt (userPart e.key) ek) :
    rdsIterItems env startKey? endKey? endRevision? startRevision? =
      specIterItems env startKey? endKey? (pyOr endRevision? maxU32)
        (pyOr startRevision? 0) := by
  have hspec0 : specIterItems env startKey? endKey? (pyOr endRevision? maxU32)
      (pyOr startRevision? 0) =
      specFrom env startKey? endKey? (pyOr endRevision? maxU32) (pyOr startRevision? 0) 0 := by
    unfold specIterItems specFrom userKeys
    rw [List.drop_zero]
  have hgs0 : groupStart env 0 := fun l hl => by omega
  rw [hspec0]
  cases startKey? with
  | none =>
    unfold rdsIterItems
    exact rdsIterLoop_eq hWF hendR hstartR hend (env.length + 1) 0 (by omega) hgs0
      (fun j _ _ => rfl)
  | some sk =>
    have hL : rdsIterItems env (some sk) endKey? endRevision? startRevision? =
        rdsIterLoop env endKey? (packRev (pyOr endRevision? maxU32))
          (packRev (pyOr startRevision? 0)) (env.length + 1)
          (if sk.isEmpty = true then 0 else setRangeIdx env sk) := rfl
    rw [hL]
    by_cases hempty : sk.isEmpty = true
    · rw [if_pos hempty]
      exact rdsIterLoop_eq hWF hendR hstartR hend (env.length + 1) 0 (by omega) hgs0
        (fun j _ _ => by simp [startPass, hempty])
    · have hempty' : sk.isEmpty = false := by simpa using hempty
      have halign : ∀ l, l < env.length → lexLt (keyAt env l) sk =
          lexLt (userPart (keyAt env l)) sk := by
        intro l hl
        have := hstart sk rfl hempty' _ (getD_mem hl)
        rw [← keyAt_def] at this
        exact this
      by_cases hi0 : setRangeIdx env sk < env.length
      case neg =>
        rw [if_neg hempty, rdsIterLoop_nil (by omega) _]
        symm
        unfold specFrom
        rw [List.drop_zero, List.filterMap_eq_nil_iff]
        intro u hu
        have hmem := mem_of_mem_dedupAdj hu
        obtain ⟨e, he, heq⟩ := List.mem_map.mp hmem
        obtain ⟨l, hllen, hel⟩ := List.mem_iff_getElem.mp he
        have h1 : lexLt (keyAt env l) sk = true := setRangeIdx_before (by omega)
        rw [halign l hllen] at h1
        have hkey : userPart (keyAt env l) = u := by
          rw [keyAt_eq hllen, hel, heq]
        rw [hkey] at h1
        unfold specYield userInRange startPass
        simp [hempty', h1]
      case pos =>
        have hbefore : ∀ l, l < setRangeIdx env sk → l < env.length →
            startPass (some sk) (userPart (keyAt env l)) = false := by
          intro l hl hllen
          have h1 := setRangeIdx_before hl
          rw [halign l hllen] at h1
          simp [startPass, hempty', h1]
        have hafterpass : ∀ j, setRangeIdx env sk ≤ j → j < env.length →
            startPass (some sk) (userPart (keyAt env j)) = true := by
          intro j hj hjlen
          have hnotlt : lexLt (keyAt env j) sk = false := by
            rcases Nat.eq_or_lt_of_le hj with heq | hlt
            · rw [← heq]
              exact setRangeIdx_found hi0
            · by_contra hcon
              have hcon' : lexLt (keyAt env j) sk = true := by
                cases h : lexLt (keyAt env j) sk
                · exact absurd h hcon
                · rfl
              have hs := envSorted_lt hWF.1 hlt hjlen
              have := lexLt_trans hs hcon'
              rw [setRangeIdx_found hi0] at this
              exact absurd this (by simp)
          rw [halign j hjlen] at hnotlt
          simp [startPass, hempty', hnotlt]
        have hgsi0 : groupStart env (setRangeIdx env sk) := by
          intro l hl heq
          have h1 := setRangeIdx_before hl
          rw [halign l (by omega)] at h1
          have h2 : lexLt (keyAt env (setRangeIdx env sk)) sk = false :=
            setRangeIdx_found hi0
          rw [halign _ hi0] at h2
          rw [heq, h2] at h1
          exact absurd h1 (by simp)
        rw [if_neg hempty]
        rw [rdsIterLoop_eq hWF hendR hstartR hend (env.length + 1) (setRangeIdx env sk)
          (by omega) hgsi0 hafterpass]
        exact (specFrom_skip hWF (le_of_lt hi0) hgsi0 hbefore (setRangeIdx env sk) 0
          (by omega) hgs0 (by omega)).symm

/-! ## `RevisionDataStore.get_item` characterisation -/

/-- **`get_item` returns the newest record at or below `end_revision`**,
missing (`KeyError`) when there is none or when that record is older than
`start_revision`.  The requested key must not be prefix-entangled with other
user keys of the environment (guaranteed by the codecs). -/
theorem rdsGetItem_eq {env : List Rec} (hWF : envWF env) {key : Bytes}
    {endRevision? startRevision? : Option Nat}
    (hendR : pyOr endRevision? maxU32 ≤ maxU32)
    (hstartR : pyOr startRevision? 0 ≤ maxU32)
    (hpf : ∀ e ∈ env, userPart e.key ≠ key →
      ¬ userPart e.key <+: key ∧ ¬ key <+: userPart e.key) :
    rdsGetItem env key endRevision? startRevision? =
      match newestLE env key (pyOr endRevision? maxU32) with
      | some e => if revOf e.key < pyOr startRevision? 0 then none
                  else some (revPart e.key, e.val)
      | none => none := by
  have hL : rdsGetItem env key endRevision? startRevision? =
      (if setRangeIdx env (key ++ packRev (pyOr endRevision? maxU32)) < env.length then
        (if userPart (keyAt env (setRangeIdx env (key ++ packRev (pyOr endRevision? maxU32)))) ≠ key ∨
            lexLt (packRev (pyOr startRevision? 0))
              (revPart (keyAt env (setRangeIdx env (key ++ packRev (pyOr endRevision? maxU32))))) = true
         then none
         else some (revPart (keyAt env (setRangeIdx env (key ++ packRev (pyOr endRevision? maxU32)))),
           valAt env (setRangeIdx env (key ++ packRev (pyOr endRevision? maxU32)))))
       else none) := rfl
  rw [hL]
  by_cases hP : ∃ l, l < env.length ∧ userPart (keyAt env l) = key ∧
      revOf (keyAt env l) ≤ pyOr endRevision? maxU32
  · obtain ⟨j, hfind, hmin⟩ :
        ∃ j, (j < env.length ∧ userPart (keyAt env j) = key ∧
            revOf (keyAt env j) ≤ pyOr endRevision? maxU32) ∧
          ∀ l, l < j → ¬(l < env.length ∧ userPart (keyAt env l) = key ∧
            revOf (keyAt env l) ≤ pyOr endRevision? maxU32) :=
      ⟨Nat.find hP, Nat.find_spec hP, fun l hl => Nat.find_min hP hl⟩
    have hsr : setRangeIdx env (key ++ packRev (pyOr endRevision? maxU32)) = j := by
      apply setRangeIdx_eq (le_of_lt hfind.1)
      · intro l hl
        have hllen : l < env.length := lt_trans hl hfind.1
        have hnotP := hmin l hl
        by_cases hu : userPart (keyAt env l) = key
        · have hrev : pyOr endRevision? maxU32 < revOf (keyAt env l) := by
            by_contra hc
            push_neg at hc
            exact hnotP ⟨hllen, hu, hc⟩
          rw [← hu, keyAt_def env l, key_cmp_same (recWF_at hWF hllen) hendR,
            ← keyAt_def env l]
          simpa using hrev
        · have hp := hpf _ (getD_mem hllen) hu
          have hcross : lexLt (keyAt env l) (key ++ packRev (pyOr endRevision? maxU32)) =
              lexLt (userPart (keyAt env l)) key := by
            conv_lhs => rw [← key_decomp (keyAt env l)]
            exact lexLt_append_of_disjoint hp.1 hp.2 _ _
          rw [hcross]
          have hsortlj := envSorted_lt hWF.1 hl hfind.1
          have hcross2 : lexLt (keyAt env l) (keyAt env j) =
              lexLt (userPart (keyAt env l)) key := by
            conv_lhs => rw [← key_decomp (keyAt env l), ← key_decomp (keyAt env j)]
            rw [hfind.2.1]
            exact lexLt_append_of_disjoint hp.1 hp.2 _ _
          rw [hcross2] at hsortlj
          exact hsortlj
      · intro _
        rw [← hfind.2.1, keyAt_def env j, key_cmp_same (recWF_at hWF hfind.1) hendR,
          ← keyAt_def env j]
        simpa using hfind.2.2
    have hnw : newestLE env key (pyOr endRevision? maxU32) =
        some (env.getD j default) := by
      apply filter_head?_eq hfind.1
      · simp only [Bool.and_eq_true, beq_iff_eq, decide_eq_true_eq]
        exact ⟨hfind.2.1, hfind.2.2⟩
      · intro l hl
        have hllen : l < env.length := lt_trans hl hfind.1
        have hnotP := hmin l hl
        by_cases hu : userPart (keyAt env l) = key
        · have hrev : pyOr endRevision? maxU32 < revOf (keyAt env l) := by
            by_contra hc
            push_neg at hc
            exact hnotP ⟨hllen, hu, hc⟩
          simp only [Bool.and_eq_false_iff, decide_eq_false_iff_not, not_le]
          exact Or.inr hrev
        · simp only [Bool.and_eq_false_iff, beq_eq_false_iff_ne, ne_eq]
          exact Or.inl hu
    rw [hsr, hnw, if_pos hfind.1]
    have hrevcmp : lexLt (packRev (pyOr startRevision? 0)) (revPart (keyAt env j)) =
        decide (revOf (keyAt env j) < pyOr startRevision? 0) := by
      rw [keyAt_def, ← (recWF_at hWF hfind.1).packRev_revOf,
        packRev_lt (revOf_le_max _) hstartR, ← keyAt_def env j]
    have hR : (match some (env.getD j default) with
        | some e => if revOf e.key < pyOr startRevision? 0 then none
                    else some (revPart e.key, e.val)
        | none => (none : Option (Bytes × Bytes))) =
        if revOf (env.getD j default).key < pyOr startRevision? 0 then none
        else some (revPart (env.getD j default).key, (env.getD j default).val) := rfl
    rw [hR]
    by_cases hyield : revOf (keyAt env j) < pyOr startRevision? 0
    · rw [if_pos (Or.inr (by rw [hrevcmp]; simpa using hyield))]
      rw [if_pos (show revOf (env.getD j default).key < pyOr startRevision? 0
        from hyield)]
    · rw [if_neg (by
        push_neg
        refine ⟨by simpa using hfind.2.1, ?_⟩
        rw [hrevcmp]
        simpa using hyield)]
      rw [if_neg (show ¬ revOf (env.getD j default).key < pyOr startRevision? 0
        from hyield)]
      rfl
  · push_neg at hP
    have hnw : newestLE env key (pyOr endRevision? maxU32) = none := by
      apply filter_head?_none
      intro e he
      obtain ⟨l, hllen, hel⟩ := List.mem_iff_getElem.mp he
      have heD : env.getD l default = e := by
        rw [List.getD_eq_getElem env default hllen]
        exact hel
      by_cases hu : userPart (keyAt env l) = key
      · have hrev := hP l hllen hu
        simp only [Bool.and_eq_false_iff, decide_eq_false_iff_not, not_le]
        exact Or.inr (by rw [← heD, ← keyAt_def]; exact hrev)
      · simp only [Bool.and_eq_false_iff, beq_eq_false_iff_ne, ne_eq]
        exact Or.inl (by rw [← heD, ← keyAt_def]; exact hu)
    rw [hnw]
    by_cases hj : setRangeIdx env (key ++ packRev (pyOr endRevision? maxU32)) < env.length
    · set idx := setRangeIdx env (key ++ packRev (pyOr endRevision? maxU32)) with hidx
      have hne : userPart (keyAt env idx) ≠ key := by
        intro hu
        have hfound : lexLt (keyAt env idx) (key ++ packRev (pyOr endRevision? maxU32)) =
            false := setRangeIdx_found hj
        have h2 := key_cmp_same (recWF_at hWF hj) (X := pyOr endRevision? maxU32) hendR
        rw [show userPart (env.getD idx default).key = key from hu] at h2
        have h3 : decide (pyOr endRevision? maxU32 < revOf (env.getD idx default).key) =
            false := by
          rw [← h2]
          exact hfound
        have h4 : revOf (env.getD idx default).key ≤ pyOr endRevision? maxU32 := by
          have := of_decide_eq_false h3
          omega
        have h5 := hP idx hj hu
        rw [keyAt_def env idx] at h5
        omega
      rw [if_pos hj, if_pos (Or.inl hne)]
    · rw [if_neg hj]

/-! ## `newestLE` really is the newest visible record -/

theorem filter_head?_inv {α : Type} [Inhabited α] {l : List α} {p : α → Bool} {x : α}
    (h : (l.filter p).head? = some x) :
    ∃ j, j < l.length ∧ l.getD j default = x ∧ p x = true ∧
      ∀ i, i < j → p (l.getD i default) = false := by
  induction l with
  | nil => simp [List.filter_nil] at h
  | cons y ys ih =>
    rw [List.filter_cons] at h
    by_cases hy : p y = true
    · rw [hy] at h
      simp only [if_true, List.head?_cons, Option.some.injEq] at h
      subst h
      exact ⟨0, by simp, by simp, hy, fun i hi => by omega⟩
    · have hy' : p y = false := by
        cases hpy : p y
        · rfl
        · exact absurd hpy hy
      rw [hy'] at h
      simp only [Bool.false_eq_true, if_false] at h
      obtain ⟨j, hj, hx, hp, hbefore⟩ := ih h
      refine ⟨j + 1, by simpa using hj, by simpa using hx, hp, ?_⟩
      intro i hi
      cases i with
      | zero => simpa using hy'
      | succ i' =>
        have := hbefore i' (by omega)
        simpa using this

/-- Records of a well-formed environment are identified by their keys. -/
theorem env_eq_of_key_eq {env : List Rec} (hWF : envWF env) {e e' : Rec}
    (he : e ∈ env) (he' : e' ∈ env) (hk : e.key = e'.key) : e = e' := by
  obtain ⟨i, hi, hei⟩ := List.mem_iff_getElem.mp he
  obtain ⟨i', hi', hei'⟩ := List.mem_iff_getElem.mp he'
  rcases Nat.lt_trichotomy i i' with h | h | h
  · have := envSorted_lt hWF.1 h hi'
    rw [keyAt_eq (lt_trans h hi'), keyAt_eq hi', hei, hei', hk, lexLt_irrefl] at this
    exact absurd this (by simp)
  · subst h
    rw [← hei, ← hei']
  · have := envSorted_lt hWF.1 h hi
    rw [keyAt_eq (lt_trans h hi), keyAt_eq hi, hei, hei', hk, lexLt_irrefl] at this
    exact absurd this (by simp)

theorem newestLE_isNewest {env : List Rec} (hWF : envWF env) {u : Bytes} {S : Nat}
    {e : Rec} (h : newestLE env u S = some e) : isNewestVisible env u S e := by
  obtain ⟨j, hj, hx, hp, hbefore⟩ := filter_head?_inv h
  simp only [Bool.and_eq_true, beq_iff_eq, decide_eq_true_eq] at hp
  refine ⟨by rw [← hx]; exact getD_mem hj, hp.1, hp.2, ?_⟩
  intro e' he' hu' hS'
  obtain ⟨l, hl, hel⟩ := List.mem_iff_getElem.mp he'
  have hlD : env.getD l default = e' := by
    rw [List.getD_eq_getElem env default hl]
    exact hel
  have hpl : (userPart e'.key == u && decide (revOf e'.key ≤ S)) = true := by
    simp only [Bool.and_eq_true, beq_iff_eq, decide_eq_true_eq]
    exact ⟨hu', hS'⟩
  have hjl : j ≤ l := by
    by_contra hcon
    push_neg at hcon
    have := hbefore l hcon
    rw [hlD, hpl] at this
    exact absurd this (by simp)
  rcases Nat.eq_or_lt_of_le hjl with heq | hlt
  · rw [← hlD, ← heq, hx]
  · have hdesc := rev_desc hWF hlt hl
      (by rw [keyAt_def env j, keyAt_def env l, hx, hlD, hp.1, hu'])
    rw [keyAt_def env j, keyAt_def env l, hx, hlD] at hdesc
    omega

theorem isNewest_newestLE {env : List Rec} (hWF : envWF env) {u : Bytes} {S : Nat}
    {e : Rec} (hn : isNewestVisible env u S e) : newestLE env u S = some e := by
  have hne : newestLE env u S ≠ none := by
    intro hnone
    unfold newestLE at hnone
    rw [List.head?_eq_none_iff, List.filter_eq_nil_iff] at hnone
    have := hnone e hn.1
    simp only [Bool.and_eq_true, beq_iff_eq, decide_eq_true_eq, not_and] at this
    exact absurd hn.2.2.1 (this hn.2.1)
  obtain ⟨e', he'⟩ := Option.ne_none_iff_exists'.mp hne
  have hn' := newestLE_isNewest hWF he'
  have hrev : revOf e.key = revOf e'.key :=
    le_antisymm (hn'.2.2.2 e hn.1 hn.2.1 hn.2.2.1) (hn.2.2.2 e' hn'.1 hn'.2.1 hn'.2.2.1)
  have hkey : e.key = e'.key := by
    have h1 := (hWF.2.1 e hn.1).key_eq
    have h2 := (hWF.2.1 e' hn'.1).key_eq
    rw [h1, h2, hn.2.1, hn'.2.1, hrev]
  rw [he', env_eq_of_key_eq hWF hn.1 hn'.1 hkey]

/-! ## The transaction read path -/

/-- For a key the transaction has not written, the proxy stack falls through
to the persistent store and returns its newest visible record. -/
theorem proxyGetItem_eq {env mem : List Rec} {memRev : Bytes} {S : Nat} {u : Bytes}
    (hWF : envWF env) (hS1 : 1 ≤ S) (hS : S ≤ maxU32)
    (hmem : ∀ e ∈ mem, e.key ≠ u)
    (hpf : ∀ e ∈ env, userPart e.key ≠ u → ¬ userPart e.key <+: u ∧ ¬ u <+: userPart e.key) :
    proxyGetItem mem memRev env u (some S) none =
      match newestLE env u S with
      | some e => some (revPart e.key, e.val)
      | none => none := by
  have hmds : mdsGetItem mem memRev u = none := by
    unfold mdsGetItem
    rw [List.find?_eq_none.mpr (fun e he => by simpa using hmem e he)]
  have hS0 : pyOr (some S) maxU32 = S := by
    have h : pyOr (some S) maxU32 = if S = 0 then maxU32 else S := rfl
    rw [h, if_neg (by omega)]
  have hsr0 : pyOr none 0 = 0 := rfl
  have hget := @rdsGetItem_eq env hWF u (some S) none
    (by rw [hS0]; exact hS) (by rw [hsr0]; unfold maxU32; omega) hpf
  rw [hS0, hsr0] at hget
  cases hc : newestLE env u S with
  | none =>
    have h1 : rdsGetItem env u (some S) none = none := by
      rw [hget, hc]
    unfold proxyGetItem
    rw [hmds]
    exact h1
  | some e =>
    have h1 : rdsGetItem env u (some S) none = some (revPart e.key, e.val) := by
      rw [hget, hc]
      have hR : (match some e with
          | some e' => if revOf e'.key < 0 then none else some (revPart e'.key, e'.val)
          | none => (none : Option (Bytes × Bytes))) =
          if revOf e.key < 0 then none else some (revPart e.key, e.val) := rfl
      rw [hR, if_neg (by omega)]
    unfold proxyGetItem
    rw [hmds]
    exact h1

/-- `Transaction.get` for an unwritten key computes the newest visible record
of the persistent store, translating tombstones and misses to the default. -/
theorem transactionGet_eq {α : Type} {env mem : List Rec} {S : Nat} {u : Bytes}
    (default : α) (vunpack : Bytes → α)
    (hWF : envWF env) (hS1 : 1 ≤ S) (hS : S ≤ maxU32)
    (hmem : ∀ e ∈ mem, e.key ≠ u)
    (hpf : ∀ e ∈ env, userPart e.key ≠ u → ¬ userPart e.key <+: u ∧ ¬ u <+: userPart e.key) :
    transactionGet mem env S u default vunpack =
      match newestLE env u S with
      | some e => if e.val = DELETED then default else vunpack e.val
      | none => default := by
  have hproxy := @proxyGetItem_eq env mem [0, 0, 0, 0] S u hWF hS1 hS hmem hpf
  cases hc : newestLE env u S with
  | none =>
    rw [hc] at hproxy
    unfold transactionGet boundEntryGetProxy
    rw [hproxy]
    rfl
  | some e =>
    rw [hc] at hproxy
    unfold transactionGet boundEntryGetProxy
    rw [hproxy]
    have hstep : (match (match some e with
        | some e' => some (revPart e'.key, e'.val)
        | none => (none : Option (Bytes × Bytes))) with
        | some rv => if rv.2 = DELETED then none else some (vunpack rv.2)
        | none => none) =
        (if e.val = DELETED then none else some (vunpack e.val)) := rfl
    have hRspec : (match some e with
        | some e' => if e'.val = DELETED then default else vunpack e'.val
        | none => default) = if e.val = DELETED then default else vunpack e.val := rfl
    rw [hstep, hRspec]
    by_cases hdel : e.val = DELETED
    · rw [if_pos hdel, if_pos hdel]
      rfl
    · rw [if_neg hdel, if_neg hdel]
      rfl

/-- `get_item` with only an end bound returns the newest visible record. -/
theorem rdsGetItem_newest {env : List Rec} {S : Nat} {u : Bytes}
    (hWF : envWF env) (hS1 : 1 ≤ S) (hS : S ≤ maxU32)
    (hpf : ∀ e ∈ env, userPart e.key ≠ u → ¬ userPart e.key <+: u ∧ ¬ u <+: userPart e.key) :
    rdsGetItem env u (some S) none =
      match newestLE env u S with
      | some e => some (revPart e.key, e.val)
      | none => none := by
  have hS0 : pyOr (some S) maxU32 = S := by
    have h : pyOr (some S) maxU32 = if S = 0 then maxU32 else S := rfl
    rw [h, if_neg (by omega)]
  have hsr0 : pyOr none 0 = 0 := rfl
  have hget := @rdsGetItem_eq env hWF u (some S) none
    (by rw [hS0]; exact hS) (by rw [hsr0]; unfold maxU32; omega) hpf
  rw [hS0, hsr0] at hget
  rw [hget]
  cases hc : newestLE env u S with
  | none => rfl
  | some e =>
    have hR : (match some e with
        | some e' => if revOf e'.key < 0 then none else some (revPart e'.key, e'.val)
        | none => (none : Option (Bytes × Bytes))) =
        if revOf e.key < 0 then none else some (revPart e.key, e.val) := rfl
    rw [hR, if_neg (by omega)]

/-- Every element of the `iter_items` spec is the newest visible record of
its user key. -/
theorem mem_specIterItems {env : List Rec} {startKey? endKey? : Option Bytes}
    {endR startR : Nat} {t : Bytes × Bytes × Bytes}
    (h : t ∈ specIterItems env startKey? endKey? endR startR) :
    ∃ e, newestLE env t.1 endR = some e ∧ t = (t.1, revPart e.key, e.val) := by
  obtain ⟨u, _hu, hy⟩ := List.mem_filterMap.mp h
  unfold specYield at hy
  by_cases hr : userInRange startKey? endKey? u = true
  · rw [if_pos hr] at hy
    cases hc : newestLE env u endR with
    | none => rw [hc] at hy; exact Option.noConfusion hy
    | some e =>
      rw [hc] at hy
      have hRm : (match some e with
          | some e' => if startR ≤ revOf e'.key then some (u, revPart e'.key, e'.val) else none
          | none => (none : Option (Bytes × Bytes × Bytes))) =
          if startR ≤ revOf e.key then some (u, revPart e.key, e.val) else none := rfl
      rw [hRm] at hy
      by_cases hge : startR ≤ revOf e.key
      · rw [if_pos hge] at hy
        simp only [Option.some.injEq] at hy
        subst hy
        exact ⟨e, hc, rfl⟩
      · rw [if_neg hge] at hy
        exact Option.noConfusion hy
  · rw [if_neg hr] at hy
    exact Option.noConfusion hy

/-- **C1** — amended.  The claim as stated fails at snapshot revision
`S = 0` (see the counterexample): `get_item` computes `end_revision or max`,
so a transaction begun at revision 0 reads with *no* upper bound and does see
later commits.  For every snapshot `S ≥ 1` the claim holds: for a key the
transaction has not itself written, `Transaction.get` returns the value of
the record with the largest revision `≤ S` (the default when that record is
the tombstone or when no revision `≤ S` exists), regardless of any records
with revisions above `S`. -/
theorem claim_C1_snapshot_isolation {α : Type} {env mem : List Rec} {S : Nat}
    {u : Bytes} (default : α) (vunpack : Bytes → α)
    (hWF : envWF env) (hS1 : 1 ≤ S) (hS : S ≤ maxU32)
    (hmem : ∀ m ∈ mem, m.key ≠ u)
    (hpf : ∀ e ∈ env, userPart e.key ≠ u → ¬ userPart e.key <+: u ∧ ¬ u <+: userPart e.key) :
    (∀ e, isNewestVisible env u S e →
      transactionGet mem env S u default vunpack =
        (if e.val = DELETED then default else vunpack e.val)) ∧
    ((∀ e ∈ env, userPart e.key = u → ¬ revOf e.key ≤ S) →
      transactionGet mem env S u default vunpack = default) := by
  have ht := transactionGet_eq default vunpack hWF hS1 hS hmem hpf
  constructor
  · intro e hne
    rw [ht, isNewest_newestLE hWF hne]
  · intro hnone
    have hnw : newestLE env u S = none := by
      apply filter_head?_none
      intro e he
      by_cases hu : userPart e.key = u
      · simp only [Bool.and_eq_false_iff, decide_eq_false_iff_not]
        exact Or.inr (hnone e he hu)
      · simp only [Bool.and_eq_false_iff, beq_eq_false_iff_ne, ne_eq]
        exact Or.inl hu
    rw [ht, hnw]

/-- Witness for the amended C1: with records at revisions 1 and 3 of the same
key, a transaction at snapshot 2 that never wrote the key reads the
revision-1 value, ignoring the revision-3 record committed after it. -/
theorem claim_C1_snapshot_isolation_witness :
    transactionGet [] [⟨[1, 255, 255, 255, 252], [67]⟩, ⟨[1, 255, 255, 255, 254], [65]⟩]
      2 [1] [66] id = [65] := by
  have h := (@claim_C1_snapshot_isolation Bytes
      [⟨[1, 255, 255, 255, 252], [67]⟩, ⟨[1, 255, 255, 255, 254], [65]⟩]
      [] 2 [1] [66] id
      (by decide) (by decide) (by decide) (by decide) (by decide)).1
    ⟨[1, 255, 255, 255, 254], [65]⟩ (by decide)
  simpa using h

/-- **C1** — counterexample.  A transaction begun at snapshot revision 0 sees
a record committed at revision 1: the store holds only a revision-1 record
(so the claim demands the default `[66]`), yet `get` returns the later
value `[65]`. -/
theorem claim_C1_counterexample :
    (∀ e ∈ [Rec.mk [1, 255, 255, 255, 254] [65]], ¬ revOf e.key ≤ 0) ∧
    transactionGet [] [Rec.mk [1, 255, 255, 255, 254] [65]] 0 [1] [66] id = [65] ∧
    ([65] : Bytes) ≠ [66] := by decide

/-- **C9**: a key whose newest revision at or below the snapshot holds the
tombstone byte is absent from `BoundEntry.iter_keys` and `iter_items` (and
`iter_values` lists exactly the values of `iter_items`), `BoundEntry.get`
signals `KeyError`, and `Transaction.get` returns the default. -/
theorem claim_C9_tombstone_hiding {env : List Rec} {S : Nat} {u : Bytes} {e : Rec}
    (hWF : envWF env) (hS1 : 1 ≤ S) (hS : S ≤ maxU32)
    (hnew : isNewestVisible env u S e) (hdel : e.val = DELETED)
    (hpf : ∀ e' ∈ env, userPart e'.key ≠ u →
      ¬ userPart e'.key <+: u ∧ ¬ u <+: userPart e'.key)
    {startDbKey? endDbKey? : Option Bytes}
    (hstart : ∀ sk, startDbKey? = some sk → sk.isEmpty = false → ∀ e' ∈ env,
      lexLt e'.key sk = lexLt (userPart e'.key) sk)
    (hend : ∀ ek, endDbKey? = some ek → ek.isEmpty = false → ∀ e' ∈ env,
      lexLt ek e'.key = !lexLt (userPart e'.key) ek) :
    u ∉ boundEntryIterKeys env (some S) none startDbKey? endDbKey? id ∧
    (∀ v, (u, v) ∉ boundEntryIterItems env (some S) none startDbKey? endDbKey? id id) ∧
    boundEntryIterValues env (some S) none startDbKey? endDbKey? id =
      (boundEntryIterItems env (some S) none startDbKey? endDbKey? id id).map Prod.snd ∧
    boundEntryGet env (some S) none u id = none ∧
    (∀ (mem : List Rec) (default : Bytes), (∀ m ∈ mem, m.key ≠ u) →
      transactionGet mem env S u default id = default) := by
  have hS0 : pyOr (some S) maxU32 = S := by
    have h : pyOr (some S) maxU32 = if S = 0 then maxU32 else S := rfl
    rw [h, if_neg (by omega)]
  have hsr0 : pyOr none 0 = 0 := rfl
  have hiter := @rdsIterItems_eq env hWF startDbKey? endDbKey? (some S) none
    (by rw [hS0]; exact hS) (by rw [hsr0]; unfold maxU32; omega) hstart hend
  rw [hS0, hsr0] at hiter
  have hnwu := isNewest_newestLE hWF hnew
  have habsent : ∀ t ∈ rdsIterItems env startDbKey? endDbKey? (some S) none,
      t.1 = u → t.2.2 = DELETED := by
    intro t ht htu
    rw [hiter] at ht
    obtain ⟨e', hne', hte⟩ := mem_specIterItems ht
    rw [htu] at hne'
    rw [hnwu] at hne'
    injection hne' with he'
    subst he'
    rw [hte, ← hdel]
  refine ⟨?_, ?_, ?_, ?_, ?_⟩
  · intro hmem
    obtain ⟨t, ht, hft⟩ := List.mem_filterMap.mp hmem
    by_cases hd : t.2.2 ≠ DELETED
    · rw [if_pos hd] at hft
      simp only [Option.some.injEq, id] at hft
      exact hd (habsent t ht hft)
    · rw [if_neg hd] at hft
      exact absurd hft (by simp)
  · intro v hmem
    obtain ⟨t, ht, hft⟩ := List.mem_filterMap.mp hmem
    by_cases hd : t.2.2 ≠ DELETED
    · rw [if_pos hd] at hft
      simp only [Option.some.injEq, Prod.mk.injEq, id] at hft
      exact hd (habsent t ht hft.1)
    · rw [if_neg hd] at hft
      exact absurd hft (by simp)
  · unfold boundEntryIterValues boundEntryIterItems
    rw [List.map_filterMap]
    congr 1
    funext t
    by_cases hd : t.2.2 ≠ DELETED
    · rw [if_pos hd, if_pos hd]
      rfl
    · rw [if_neg hd, if_neg hd]
      rfl
  · have hg := rdsGetItem_newest hWF hS1 hS hpf
    rw [hnwu] at hg
    unfold boundEntryGet
    rw [hg]
    have hR : (match some (revPart e.key, e.val) with
        | some rv => if rv.2 = DELETED then none else some (id rv.2)
        | none => (none : Option Bytes)) =
        if e.val = DELETED then none else some (id e.val) := rfl
    rw [hR, if_pos hdel]
  · intro mem default hmem
    have ht := transactionGet_eq default id hWF hS1 hS hmem hpf
    rw [ht, hnwu]
    have hR2 : (match some e with
        | some e' => if e'.val = DELETED then default else id e'.val
        | none => default) =
        if e.val = DELETED then default else id e.val := rfl
    rw [hR2, if_pos hdel]

/-- Witness for C9 at a concrete store: key `[2]` is tombstoned at revision 2
(over a live revision-1 value) and key `[1]` is live; at snapshot 2 key `[2]`
is hidden everywhere. -/
theorem claim_C9_tombstone_hiding_witness :
    ([2] : Bytes) ∉ boundEntryIterKeys
      [⟨[1, 255, 255, 255, 254], [65]⟩, ⟨[2, 255, 255, 255, 253], [0]⟩,
       ⟨[2, 255, 255, 255, 254], [66]⟩] (some 2) none none none id := by
  exact (@claim_C9_tombstone_hiding
    [⟨[1, 255, 255, 255, 254], [65]⟩, ⟨[2, 255, 255, 255, 253], [0]⟩,
     ⟨[2, 255, 255, 255, 254], [66]⟩] 2 [2] ⟨[2, 255, 255, 255, 253], [0]⟩
    (by decide) (by decide) (by decide) (by decide) (by decide) (by decide)
    none none
    (by intro sk h; simp at h) (by intro ek h; simp at h)).1

/-- **C10**: `BoundEntry.contains` returns `True` when the newest visible
record for the key is the tombstone (a deleted key is reported as contained,
because `contains` only checks `get_item(pk) is not None` and never inspects
the tombstone byte), and when no record for the key exists in the overlay or
the revision store, the datastore's `KeyError` propagates out of `contains`
instead of producing `False`. -/
theorem claim_C10_contains {env mem : List Rec} {memRev : Bytes} {S : Nat} {u : Bytes}
    (hWF : envWF env) (hS1 : 1 ≤ S) (hS : S ≤ maxU32)
    (hmem : ∀ m ∈ mem, m.key ≠ u)
    (hpf : ∀ e ∈ env, userPart e.key ≠ u → ¬ userPart e.key <+: u ∧ ¬ u <+: userPart e.key) :
    (∀ e, isNewestVisible env u S e → e.val = DELETED →
      boundEntryContains mem memRev env (some S) none u = some true) ∧
    ((∀ e ∈ env, userPart e.key ≠ u) →
      boundEntryContains mem memRev env (some S) none u = none) := by
  have hp := @proxyGetItem_eq env mem memRev S u hWF hS1 hS hmem hpf
  constructor
  · intro e hne _hdel
    unfold boundEntryContains
    rw [hp, isNewest_newestLE hWF hne]
  · intro hno
    have hnw : newestLE env u S = none := by
      apply filter_head?_none
      intro e he
      simp only [Bool.and_eq_false_iff, beq_eq_false_iff_ne, ne_eq]
      exact Or.inl (hno e he)
    unfold boundEntryContains
    rw [hp, hnw]

/-- Witness for C10: key `[2]` is tombstoned at revision 1 yet reported
contained; key `[9]` has no record anywhere and `contains` propagates the
`KeyError` (`none`). -/
theorem claim_C10_contains_witness :
    boundEntryContains [] [0, 0, 0, 4] [⟨[2, 255, 255, 255, 254], [0]⟩]
      (some 1) none [2] = some true ∧
    boundEntryContains [] [0, 0, 0, 4] [⟨[2, 255, 255, 255, 254], [0]⟩]
      (some 1) none [9] = none := by
  constructor
  · exact (claim_C10_contains (by decide) (by decide) (by decide) (by decide)
      (by decide)).1 ⟨[2, 255, 255, 255, 254], [0]⟩ (by decide) (by decide)
  · exact (claim_C10_contains (by decide) (by decide) (by decide) (by decide)
      (by decide)).2 (by decide)

/-- An LMDB `put` always leaves the inserted record present. -/
theorem mem_envInsert_self (env : List Rec) (r : Rec) : r ∈ envInsert env r := by
  induction env with
  | nil => simp [envInsert]
  | cons e rest ih =>
    simp only [envInsert]
    split
    · exact List.mem_cons_self _ _
    · split
      · exact List.mem_cons_self _ _
      · exact List.mem_cons_of_mem e ih

/-- An LMDB `put` keeps every record whose key differs from the one written. -/
theorem mem_envInsert_of_ne {env : List Rec} {e r : Rec} (he : e ∈ env)
    (hne : e.key ≠ r.key) : e ∈ envInsert env r := by
  induction env with
  | nil => cases he
  | cons e' rest ih =>
    simp only [envInsert]
    rcases List.mem_cons.mp he with h | h
    · subst h
      split
      · exact List.mem_cons_of_mem _ (List.mem_cons_self _ _)
      · split
        · rename_i h2
          exact absurd h2.symm hne
        · exact List.mem_cons_self _ _
    · split
      · exact List.mem_cons_of_mem _ (List.mem_cons_of_mem _ h)
      · split
        · exact List.mem_cons_of_mem _ h
        · exact List.mem_cons_of_mem _ (ih h)

/-- A record survives a batch of `put`s at other keys. -/
theorem mem_foldl_envInsert {env : List Rec} {data : List Rec} {r : Rec}
    (hr : r ∈ env) (hks : ∀ d ∈ data, d.key ≠ r.key) :
    r ∈ data.foldl envInsert env := by
  induction data generalizing env with
  | nil => exact hr
  | cons d ds ih =>
    simp only [List.foldl_cons]
    apply ih
    · exact mem_envInsert_of_ne hr (fun hh => hks d (List.mem_cons_self _ _) hh.symm)
    · exact fun d' hd' => hks d' (List.mem_cons_of_mem _ hd')

/-- `raw_store` of a batch with pairwise-distinct keys leaves every record of
the batch present. -/
theorem rawStore_mem {env : List Rec} {data : List Rec} {r : Rec}
    (hr : r ∈ data) (hnodup : (data.map Rec.key).Nodup) :
    r ∈ rawStore env data := by
  induction data generalizing env with
  | nil => cases hr
  | cons d ds ih =>
    simp only [rawStore, List.foldl_cons]
    have hnd : (∀ x ∈ ds, ¬ x.key = d.key) ∧ (ds.map Rec.key).Nodup := by
      simpa using hnodup
    rcases List.mem_cons.mp hr with h | h
    · subst h
      apply mem_foldl_envInsert (mem_envInsert_self env r)
      intro d' hd' hh
      exact hnd.1 d' hd' hh
    · exact ih h hnd.2

/-- **C3** — counterexample.  `store` at `R` equal to `current_revision`
does *not* raise `MonotonicityError`: the guard is `current_revision >
revision`, so re-writing at the current revision succeeds and silently
replaces the existing physical record. -/
theorem claim_C3_counterexample :
    (1 : Nat) ≤ 1 ∧
    rdsStore ⟨[⟨[1, 255, 255, 255, 254], [65]⟩], 1⟩ [([1], [66])] 1 =
      .ok ⟨[⟨[1, 255, 255, 255, 254], [66]⟩], 1⟩ :=
  ⟨Nat.le_refl 1, rfl⟩

/-- **C3** — amended.  `store(items, R)` raises `MonotonicityError` exactly
when `R < current_revision` (so `R = current_revision` is accepted, contrary
to the claim); on success every item is written under the physical key
`user_key ‖ inv(R)` and `current_revision` becomes `R`. -/
theorem claim_C3_monotonicity (ds : RDS) (data : List (Bytes × Bytes)) (R : Nat)
    (hnodup : (data.map Prod.fst).Nodup) :
    (rdsStore ds data R = .error "MonotonicityError" ↔ R < ds.currentRevision) ∧
    (ds.currentRevision ≤ R →
      rdsStore ds data R =
        .ok ⟨rawStore ds.env (data.map fun kv => ⟨kv.1 ++ packRev R, kv.2⟩), R⟩ ∧
      ∀ kv ∈ data, Rec.mk (kv.1 ++ packRev R) kv.2 ∈
        rawStore ds.env (data.map fun kv => ⟨kv.1 ++ packRev R, kv.2⟩)) := by
  constructor
  · constructor
    · intro h
      unfold rdsStore at h
      by_cases hlt : ds.currentRevision > R
      · omega
      · rw [if_neg hlt] at h
        exact Except.noConfusion h
    · intro h
      unfold rdsStore
      rw [if_pos (show ds.currentRevision > R by omega)]
  · intro hle
    refine ⟨?_, ?_⟩
    · unfold rdsStore
      rw [if_neg (by omega)]
    · intro kv hkv
      apply rawStore_mem (List.mem_map_of_mem _ hkv)
      have hmm : ((data.map fun kv => Rec.mk (kv.1 ++ packRev R) kv.2).map Rec.key)
          = (data.map Prod.fst).map (fun k => k ++ packRev R) := by
        simp [List.map_map]
      rw [hmm]
      exact hnodup.map (fun a b hab => List.append_cancel_right hab)

/-- Witness for the amended C3: storing two fresh keys at revision 1 over an
empty store at revision 0 succeeds and both physical records are present. -/
theorem claim_C3_monotonicity_witness :
    rdsStore ⟨[], 0⟩ [([1], [65]), ([2], [66])] 1 =
      .ok ⟨rawStore []
        ([([1], [65]), ([2], [66])].map fun kv => ⟨kv.1 ++ packRev 1, kv.2⟩), 1⟩ ∧
    Rec.mk ([1] ++ packRev 1) [65] ∈ rawStore []
      ([([1], [65]), ([2], [66])].map fun kv => ⟨kv.1 ++ packRev 1, kv.2⟩) :=
  ⟨((claim_C3_monotonicity ⟨[], 0⟩ [([1], [65]), ([2], [66])] 1 (by decide)).2
      (by decide)).1,
   ((claim_C3_monotonicity ⟨[], 0⟩ [([1], [65]), ([2], [66])] 1 (by decide)).2
      (by decide)).2 ([1], [65]) (by decide)⟩

/-- The signed packer's offset `(256^size − 1) // 2` in closed form: one
*less* than the claimed `2^(n−1)` half-range point. -/
theorem signedOffset_eq {size : Nat} (h : 1 ≤ size) :
    signedOffset size = 2 ^ (8 * size - 1) - 1 := by
  unfold signedOffset
  have h1 : (256 : Nat) ^ size = 2 ^ (8 * size) := by
    rw [show (256 : Nat) = 2 ^ 8 from rfl, ← pow_mul]
  have h2 : 2 * 2 ^ (8 * size - 1) = 2 ^ (8 * size) := by
    rw [← pow_succ']
    congr 1
    omega
  have h3 : 1 ≤ 2 ^ (8 * size - 1) := Nat.one_le_two_pow
  omega

/-- **C6** — counterexample.  The 2-byte signed packer encodes `0` as
`[127, 255]` (offset `2^15 − 1 = 32767`), not as the claimed
`be2(0 + 2^15) = [128, 0]`: `__init__` computes `self.max /= 2` on
`256^n − 1`, giving offset `(2^16 − 1) // 2`. -/
theorem claim_C6_counterexample :
    signedIntegerPack 2 0 = [127, 255] ∧
    beBytes 2 ((0 : Int) + 2 ^ 15).toNat = [128, 0] ∧
    ([127, 255] : Bytes) ≠ [128, 0] := by decide

/-- **C6** — amended.  The signed integer packers encode `v` as the
fixed-width big-endian unsigned encoding of `v + (2^(n−1) − 1)` — the offset
is one less than the claimed `2^(n−1)` — and decoding subtracts the same
offset, so `unpack ∘ pack = id` on the declared range. -/
theorem claim_C6_signed_offset (size : Nat) (v : Int) (hsize : 1 ≤ size)
    (hlo : -(signedOffset size : Int) ≤ v) (hhi : v ≤ signedOffset size) :
    signedIntegerPack size v =
      beBytes size (v + ((2 : Int) ^ (8 * size - 1) - 1)).toNat ∧
    signedIntegerUnpack size (signedIntegerPack size v) = v := by
  have h3 : 1 ≤ 2 ^ (8 * size - 1) := Nat.one_le_two_pow
  have hcast : ((signedOffset size : Nat) : Int) = (2 : Int) ^ (8 * size - 1) - 1 := by
    rw [signedOffset_eq hsize, Nat.cast_sub h3]
    push_cast
    ring
  constructor
  · unfold signedIntegerPack
    rw [hcast]
  · have hoN : 2 * signedOffset size ≤ 256 ^ size - 1 := by
      unfold signedOffset
      omega
    have h1 : 1 ≤ 256 ^ size := Nat.one_le_pow _ _ (by omega)
    have hlt : (v + (signedOffset size : Int)).toNat < 256 ^ size := by omega
    unfold signedIntegerUnpack signedIntegerPack
    rw [beVal_beBytes hlt]
    omega

/-- Witness for the amended C6: the 2-byte packer on `v = -1`. -/
theorem claim_C6_signed_offset_witness :
    signedIntegerPack 2 (-1) =
      beBytes 2 ((-1 : Int) + ((2 : Int) ^ (8 * 2 - 1) - 1)).toNat ∧
    signedIntegerUnpack 2 (signedIntegerPack 2 (-1)) = -1 :=
  claim_C6_signed_offset 2 (-1) (by decide) (by decide) (by decide)

/-- **C5** — counterexample.  Order preservation fails for the float packer
on two negative floats (`-2.0 < -1.0` as floats, patterns `0xC0000000` and
`0xBF800000`, but the sign-bit flip leaves negatives in *descending* pattern
order), and for the string packer when the larger string contains a NUL byte
(`"" < "\x00"` yet with suffix `[1]` the packed keys compare the other
way). -/
theorem claim_C5_counterexample :
    (floatLt 0xC0000000 0xBF800000 ∧
      lexLt (floatPack 0xC0000000 ++ [7]) (floatPack 0xBF800000 ++ [7]) = false) ∧
    (lexLt [] [0] = true ∧
      lexLt (stringPack true [] ++ [1]) (stringPack true [0] ++ [1]) = false) := by
  decide

/-- **C5** — amended.  Index-mode order preservation under a common suffix
holds for: the unsigned packer on in-range values; the signed packer on the
declared range; the float packer whenever at least one operand is
non-negative (both-negative pairs are reversed); and the string packer when
the larger string is NUL-free. -/
theorem claim_C5_order_preservation :
    (∀ size m n : Nat, ∀ s : Bytes, m < n → n < 256 ^ size →
      lexLt (unsignedIntegerPack size m ++ s) (unsignedIntegerPack size n ++ s) = true) ∧
    (∀ size : Nat, ∀ a b : Int, ∀ s : Bytes, 1 ≤ size →
      -(signedOffset size : Int) ≤ a → a < b → b ≤ signedOffset size →
      lexLt (signedIntegerPack size a ++ s) (signedIntegerPack size b ++ s) = true) ∧
    (∀ pa pb : Nat, ∀ s : Bytes, pa < 2 ^ 32 → pb < 2 ^ 32 → floatLt pa pb →
      pa < 2 ^ 31 ∨ pb < 2 ^ 31 →
      lexLt (floatPack pa ++ s) (floatPack pb ++ s) = true) ∧
    (∀ a b : Bytes, ∀ s : Bytes, (∀ x ∈ b, x ≠ 0) → lexLt a b = true →
      lexLt (stringPack true a ++ s) (stringPack true b ++ s) = true) := by
  refine ⟨?_, ?_, ?_, ?_⟩
  · intro size m n s hmn hn
    unfold unsignedIntegerPack
    apply lexLt_append_of_length_eq (by simp)
    rw [lexLt_beBytes (Nat.lt_trans hmn hn) hn]
    simpa using hmn
  · intro size a b s hsize hlo hab hhi
    have hoN : 2 * signedOffset size ≤ 256 ^ size - 1 := by
      unfold signedOffset
      omega
    have h1 : 1 ≤ 256 ^ size := Nat.one_le_pow _ _ (by omega)
    have hmn : (a + (signedOffset size : Int)).toNat <
        (b + (signedOffset size : Int)).toNat := by omega
    have hnlt : (b + (signedOffset size : Int)).toNat < 256 ^ size := by omega
    unfold signedIntegerPack
    apply lexLt_append_of_length_eq (by simp)
    rw [lexLt_beBytes (Nat.lt_trans hmn hnlt) hnlt]
    simpa using hmn
  · intro pa pb s ha hb hlt hnn
    have key : floatFlip pa < floatFlip pb ∧ floatFlip pb < 2 ^ 32 := by
      unfold floatLt floatRank at hlt
      unfold floatFlip
      by_cases h1 : pa < 2 ^ 31 <;> by_cases h2 : pb < 2 ^ 31
      · rw [if_pos h1, if_pos h2] at hlt
        rw [if_pos h1, if_pos h2]
        omega
      · rw [if_pos h1, if_neg h2] at hlt
        rw [if_pos h1, if_neg h2]
        omega
      · rw [if_neg h1, if_pos h2] at hlt
        rw [if_neg h1, if_pos h2]
        omega
      · rcases hnn with h | h
        · exact absurd h h1
        · exact absurd h h2
    unfold floatPack
    apply lexLt_append_of_length_eq (by simp)
    rw [lexLt_beBytes (Nat.lt_trans key.1 key.2) key.2]
    simpa using key.1
  · intro a b s hnb hab
    have h1 : stringPack true a = a ++ [0] := rfl
    have h2 : stringPack true b = b ++ [0] := rfl
    rw [h1, h2, List.append_assoc, List.append_assoc]
    exact lexLt_nul_append hnb hab s s

/-- Witness for the amended C5 at concrete values for all four codecs. -/
theorem claim_C5_order_preservation_witness :
    lexLt (unsignedIntegerPack 2 3 ++ [9]) (unsignedIntegerPack 2 7 ++ [9]) = true ∧
    lexLt (signedIntegerPack 2 (-5) ++ [9]) (signedIntegerPack 2 4 ++ [9]) = true ∧
    lexLt (floatPack 0xBF800000 ++ [9]) (floatPack 0x3F800000 ++ [9]) = true ∧
    lexLt (stringPack true [65] ++ [9]) (stringPack true [66] ++ [9]) = true :=
  ⟨claim_C5_order_preservation.1 2 3 7 [9] (by decide) (by decide),
   claim_C5_order_preservation.2.1 2 (-5) 4 [9] (by decide) (by decide) (by decide)
     (by decide),
   claim_C5_order_preservation.2.2.1 0xBF800000 0x3F800000 [9] (by decide) (by decide)
     (by decide) (by decide),
   claim_C5_order_preservation.2.2.2 [65] [66] [9] (by decide) (by decide)⟩

/-- Iteration order of `SortedDict` keys: ascending byte-lexicographic,
`nameLe a b` meaning `a` is iterated no later than `b`. -/
def nameLe (a b : Bytes) : Prop := lexLt b a = false

instance : DecidableRel nameLe :=
  fun a b => inferInstanceAs (Decidable (lexLt b a = false))

instance : IsTotal Bytes nameLe :=
  ⟨fun a b => by
    rcases lexLt_trichotomy a b with h | h | h
    · exact Or.inl (lexLt_asymm h)
    · subst h
      exact Or.inl (lexLt_irrefl a)
    · exact Or.inr (lexLt_asymm h)⟩

instance : IsTrans Bytes nameLe :=
  ⟨fun a b c h1 h2 => by
    have h1' : lexLt b a = false := h1
    have h2' : lexLt c b = false := h2
    show lexLt c a = false
    cases hca : lexLt c a with
    | false => rfl
    | true =>
      exfalso
      rcases lexLt_trichotomy b c with h | h | h
      · exact Bool.false_ne_true (h1' ▸ lexLt_trans h hca)
      · subst h
        exact Bool.false_ne_true (h1' ▸ hca)
      · exact Bool.false_ne_true (h2' ▸ h)⟩

/-- `Transaction.commit` flushes `for n, ds in self._datastores.iteritems()`
with `self._datastores = SortedDict()`: the sub-stores are flushed in
ascending name order. -/
def commitFlushOrder (names : List Bytes) : List Bytes :=
  List.insertionSort nameLe names

/-- The byte string `"_commits"`. -/
def commitsName : Bytes := [95, 99, 111, 109, 109, 105, 116, 115]

/-- **C4** — counterexample.  With the touched sub-stores `"people"` and
`"_commits"`, the `SortedDict` flush order puts `"_commits"` *first*
(`'_' = 0x5F` sorts before every lowercase letter), not last: a reader
observing `_commits[0] == R` has no guarantee that `people`'s data for
commit `R` is flushed. -/
theorem claim_C4_counterexample :
    commitFlushOrder [[112, 101, 111, 112, 108, 101], commitsName] =
      [commitsName, [112, 101, 111, 112, 108, 101]] ∧
    (commitFlushOrder [[112, 101, 111, 112, 108, 101], commitsName]).head? =
      some commitsName ∧
    commitsName ≠ [112, 101, 111, 112, 108, 101] := by decide

/-- **C4** — amended.  `commit` flushes the touched sub-stores in ascending
lexicographic name order (the `SortedDict` iteration order); in particular,
when every other touched name is lexicographically greater than `"_commits"`
(true of all lowercase collection names), the `_commits` flush comes
*first*, not last. -/
theorem claim_C4_flush_order (names : List Bytes) :
    (commitFlushOrder names).Perm names ∧
    (commitFlushOrder names).Sorted nameLe ∧
    (commitsName ∈ names →
      (∀ n ∈ names, n ≠ commitsName → lexLt commitsName n = true) →
      (commitFlushOrder names).head? = some commitsName) := by
  refine ⟨List.perm_insertionSort _ _, List.sorted_insertionSort _ _, ?_⟩
  intro hmem hall
  have hperm := List.perm_insertionSort nameLe names
  cases hl : commitFlushOrder names with
  | nil =>
    have hin : commitsName ∈ commitFlushOrder names := hperm.mem_iff.mpr hmem
    rw [hl] at hin
    cases hin
  | cons h t =>
    simp only [List.head?_cons, Option.some.injEq]
    by_cases hh : h = commitsName
    · exact hh
    · exfalso
      have hhin : h ∈ names := hperm.mem_iff.mp (by
        rw [show List.insertionSort nameLe names = commitFlushOrder names from rfl, hl]
        exact List.mem_cons_self _ _)
      have hlex : lexLt commitsName h = true := hall h hhin hh
      have hsort : (commitFlushOrder names).Sorted nameLe :=
        List.sorted_insertionSort _ _
      rw [hl] at hsort
      have hcm : commitsName ∈ t := by
        have hin : commitsName ∈ commitFlushOrder names := hperm.mem_iff.mpr hmem
        rw [hl] at hin
        rcases List.mem_cons.mp hin with he | he
        · exact absurd he.symm hh
        · exact he
      have hle : nameLe h commitsName := (List.sorted_cons.mp hsort).1 commitsName hcm
      have hle' : lexLt commitsName h = false := hle
      exact Bool.false_ne_true (hle' ▸ hlex)

/-- Witness for the amended C4: with sub-stores `"people"` and `"_commits"`,
the first flush is `"_commits"`. -/
theorem claim_C4_flush_order_witness :
    (commitFlushOrder [[112, 101, 111, 112, 108, 101], commitsName]).head? =
      some commitsName :=
  (claim_C4_flush_order [[112, 101, 111, 112, 108, 101], commitsName]).2.2
    (by decide) (by decide)

/-! ## `ProxyDataStore.iter_items` (`datastore.py`): the N-way merge -/

/-- A `(key, packed_revision, value)` triple as yielded by a sub-iterator. -/
abbrev Triple := Bytes × Bytes × Bytes

/-- Python tuple comparison on the first three components of the pool
entries `(k, r, v, i)`: lexicographic on `(key, packed_revision, value)`.
(The fourth component, the iterator object, is only reached when the three
byte strings are equal, in which case the yielded triple is the same
whichever entry `min` returns.) -/
def tripleLt (a b : Triple) : Bool :=
  lexLt a.1 b.1 ||
    (a.1 == b.1 && (lexLt a.2.1 b.2.1 || (a.2.1 == b.2.1 && lexLt a.2.2 b.2.2)))

/-- Fold computing `min(items)` over the current triples. -/
def minFold (a : Triple) (rest : List (Triple × List Triple)) : Triple :=
  rest.foldl (fun m q => if tripleLt q.1 m then q.1 else m) a

/-- `min(items)` of the live pool (`none` when the pool is empty, ending the
`while items` loop). -/
def minT : List (Triple × List Triple) → Option Triple
  | [] => none
  | p :: rest => some (minFold p.1 rest)

/-- One advancement pass: every pool entry whose current key equals the
chosen key `lk` calls `i.next()` (dropping the entry on `StopIteration`);
the others are kept as they are. -/
def advanceItems (items : List (Triple × List Triple)) (lk : Bytes) :
    List (Triple × List Triple) :=
  items.filterMap (fun p =>
    if p.1.1 == lk then
      match p.2 with
      | [] => none
      | t :: rest => some (t, rest)
    else some p)

/-- The merge loop of `ProxyDataStore.iter_items` after the initial
all-`None` pass: yield `min(items)` and advance the same-key entries. -/
def proxyLoop (fuel : Nat) (items : List (Triple × List Triple)) : List Triple :=
  match fuel with
  | 0 => []
  | fuel + 1 =>
    match minT items with
    | none => []
    | some m => m :: proxyLoop fuel (advanceItems items m.1)

/-- The initial all-`None` pass: every sub-iterator is advanced once;
exhausted ones are dropped. -/
def proxyInit (streams : List (List Triple)) : List (Triple × List Triple) :=
  streams.filterMap (fun s =>
    match s with
    | [] => none
    | t :: rest => some (t, rest))

/-- Pool size bound: each loop iteration consumes at least one unit. -/
def proxySize (items : List (Triple × List Triple)) : Nat :=
  items.foldl (fun n p => n + 1 + p.2.length) 0

/-- `ProxyDataStore.iter_items` on the lists yielded by the sub-iterators. -/
def proxyIterItems (streams : List (List Triple)) : List Triple :=
  proxyLoop (proxySize (proxyInit streams) + 1) (proxyInit streams)

theorem tripleLt_irrefl (a : Triple) : tripleLt a a = false := by
  simp [tripleLt, lexLt_irrefl]

theorem tripleLt_trans {a b c : Triple} (h1 : tripleLt a b = true)
    (h2 : tripleLt b c = true) : tripleLt a c = true := by
  simp only [tripleLt, Bool.or_eq_true, Bool.and_eq_true, beq_iff_eq] at h1 h2 ⊢
  rcases h1 with h1 | ⟨e1, h1⟩ <;> rcases h2 with h2 | ⟨e2, h2⟩
  · exact Or.inl (lexLt_trans h1 h2)
  · exact Or.inl (e2 ▸ h1)
  · exact Or.inl (e1 ▸ h2)
  · refine Or.inr ⟨e1.trans e2, ?_⟩
    rcases h1 with h1 | ⟨f1, h1⟩ <;> rcases h2 with h2 | ⟨f2, h2⟩
    · exact Or.inl (lexLt_trans h1 h2)
    · exact Or.inl (f2 ▸ h1)
    · exact Or.inl (f1 ▸ h2)
    · exact Or.inr ⟨f1.trans f2, lexLt_trans h1 h2⟩

theorem tripleLt_trichotomy (a b : Triple) :
    tripleLt a b = true ∨ a = b ∨ tripleLt b a = true := by
  simp only [tripleLt, Bool.or_eq_true, Bool.and_eq_true, beq_iff_eq]
  rcases lexLt_trichotomy a.1 b.1 with h | h | h
  · exact Or.inl (Or.inl h)
  · rcases lexLt_trichotomy a.2.1 b.2.1 with h2 | h2 | h2
    · exact Or.inl (Or.inr ⟨h, Or.inl h2⟩)
    · rcases lexLt_trichotomy a.2.2 b.2.2 with h3 | h3 | h3
      · exact Or.inl (Or.inr ⟨h, Or.inr ⟨h2, h3⟩⟩)
      · refine Or.inr (Or.inl ?_)
        obtain ⟨a1, a2, a3⟩ := a
        obtain ⟨b1, b2, b3⟩ := b
        simp only at h h2 h3
        rw [h, h2, h3]
      · exact Or.inr (Or.inr (Or.inr ⟨h.symm, Or.inr ⟨h2.symm, h3⟩⟩))
    · exact Or.inr (Or.inr (Or.inr ⟨h.symm, Or.inl h2⟩))
  · exact Or.inr (Or.inr (Or.inl h))

theorem tripleLt_not_lt_trans {a b c : Triple} (h1 : tripleLt b a = false)
    (h2 : tripleLt c b = false) : tripleLt c a = false := by
  cases hca : tripleLt c a with
  | false => rfl
  | true =>
    exfalso
    rcases tripleLt_trichotomy b c with h | h | h
    · exact Bool.false_ne_true (h1 ▸ tripleLt_trans h hca)
    · subst h
      exact Bool.false_ne_true (h1 ▸ hca)
    · exact Bool.false_ne_true (h2 ▸ h)

/-- The fold result is one of the candidate triples. -/
theorem minFold_mem (a : Triple) (rest : List (Triple × List Triple)) :
    minFold a rest = a ∨ ∃ q ∈ rest, minFold a rest = q.1 := by
  induction rest generalizing a with
  | nil => exact Or.inl rfl
  | cons q qs ih =>
    have h : minFold a (q :: qs) = minFold (if tripleLt q.1 a then q.1 else a) qs := rfl
    by_cases hq : tripleLt q.1 a = true
    · rw [h, if_pos hq]
      rcases ih q.1 with h1 | ⟨r, hr, h1⟩
      · exact Or.inr ⟨q, List.mem_cons_self _ _, h1⟩
      · exact Or.inr ⟨r, List.mem_cons_of_mem _ hr, h1⟩
    · rw [h, if_neg hq]
      rcases ih a with h1 | ⟨r, hr, h1⟩
      · exact Or.inl h1
      · exact Or.inr ⟨r, List.mem_cons_of_mem _ hr, h1⟩

/-- No candidate triple is strictly below the fold result. -/
theorem minFold_min (a : Triple) (rest : List (Triple × List Triple)) :
    tripleLt a (minFold a rest) = false ∧
    ∀ p ∈ rest, tripleLt p.1 (minFold a rest) = false := by
  induction rest generalizing a with
  | nil => exact ⟨tripleLt_irrefl a, fun p hp => absurd hp (List.not_mem_nil p)⟩
  | cons q qs ih =>
    have h : minFold a (q :: qs) = minFold (if tripleLt q.1 a then q.1 else a) qs := rfl
    by_cases hq : tripleLt q.1 a = true
    · rw [h, if_pos hq]
      obtain ⟨ihh, iht⟩ := ih q.1
      refine ⟨?_, fun p hp => ?_⟩
      · cases har : tripleLt a (minFold q.1 qs) with
        | false => rfl
        | true => exact (Bool.false_ne_true (ihh ▸ tripleLt_trans hq har)).elim
      · rcases List.mem_cons.mp hp with hh | hh
        · rw [hh]
          exact ihh
        · exact iht p hh
    · rw [h, if_neg hq]
      obtain ⟨ihh, iht⟩ := ih a
      have hqf : tripleLt q.1 a = false := by
        cases hb : tripleLt q.1 a
        · rfl
        · exact absurd hb hq
      refine ⟨ihh, fun p hp => ?_⟩
      rcases List.mem_cons.mp hp with hh | hh
      · rw [hh]
        exact tripleLt_not_lt_trans ihh hqf
      · exact iht p hh

/-- **C7** — counterexample.  Two stores positioned at the same user key
`[120]`: the higher-priority store 0 carries revision 1 (packed
`[255,255,255,254]`, value `[118,97]`), the lower-priority store 1 carries
revision 2 (packed `[255,255,255,253]`, value `[118,98]`).  `min(items)`
compares `(key, packed_revision, value)` tuples, so the merge yields store
1's tuple — not the highest-priority store's as claimed. -/
theorem claim_C7_counterexample :
    proxyIterItems [[([120], [255, 255, 255, 254], [118, 97])],
                    [([120], [255, 255, 255, 253], [118, 98])]] =
      [([120], [255, 255, 255, 253], [118, 98])] ∧
    ([118, 98] : Bytes) ≠ [118, 97] := by decide

/-- **C7** — amended.  At every merge step the yielded tuple is the *minimum
`(key, packed_revision, value)` tuple* over the live pool: its user key is
the smallest current key, and among stores positioned at that key the tuple
with the smallest packed revision — i.e. the numerically highest revision —
wins, regardless of stack priority.  Every entry whose current key equals
the chosen key is advanced (dropped when exhausted); all others are kept
unchanged. -/
theorem claim_C7_merge_step (fuel : Nat) (items : List (Triple × List Triple))
    (m : Triple) (hmin : minT items = some m) :
    proxyLoop (fuel + 1) items = m :: proxyLoop fuel (advanceItems items m.1) ∧
    (∃ p ∈ items, p.1 = m) ∧
    (∀ p ∈ items, tripleLt p.1 m = false) ∧
    (∀ p ∈ items, m.1 = p.1.1 ∨ lexLt m.1 p.1.1 = true) ∧
    (∀ p ∈ items, p.1.1 ≠ m.1 → p ∈ advanceItems items m.1) ∧
    (∀ p ∈ items, p.1.1 = m.1 → ∀ t rest, p.2 = t :: rest →
      (t, rest) ∈ advanceItems items m.1) := by
  have hstep : proxyLoop (fuel + 1) items =
      (match minT items with
       | none => []
       | some m => m :: proxyLoop fuel (advanceItems items m.1)) := rfl
  have hmem : ∃ p ∈ items, p.1 = m := by
    cases items with
    | nil => exact absurd hmin (by simp [minT])
    | cons p rest =>
      have hm : m = minFold p.1 rest := by
        have h : minT (p :: rest) = some (minFold p.1 rest) := rfl
        rw [h] at hmin
        exact (Option.some.injEq _ _ ▸ hmin).symm
      rcases minFold_mem p.1 rest with h | ⟨q, hq, h⟩
      · exact ⟨p, List.mem_cons_self _ _, by rw [hm, h]⟩
      · exact ⟨q, List.mem_cons_of_mem _ hq, by rw [hm, h]⟩
  have hminimal : ∀ p ∈ items, tripleLt p.1 m = false := by
    cases items with
    | nil => exact fun p hp => absurd hp (List.not_mem_nil p)
    | cons p rest =>
      have hm : m = minFold p.1 rest := by
        have h : minT (p :: rest) = some (minFold p.1 rest) := rfl
        rw [h] at hmin
        exact (Option.some.injEq _ _ ▸ hmin).symm
      intro q hq
      obtain ⟨hh, ht⟩ := minFold_min p.1 rest
      rcases List.mem_cons.mp hq with h | h
      · rw [h, hm]
        exact hh
      · rw [hm]
        exact ht q h
  refine ⟨by rw [hstep, hmin], hmem, hminimal, ?_, ?_, ?_⟩
  · intro p hp
    have hnp := hminimal p hp
    rcases lexLt_trichotomy m.1 p.1.1 with h | h | h
    · exact Or.inr h
    · exact Or.inl h
    · exfalso
      have : tripleLt p.1 m = true := by
        simp only [tripleLt, Bool.or_eq_true]
        exact Or.inl h
      exact Bool.false_ne_true (hnp ▸ this)
  · intro p hp hne
    refine List.mem_filterMap.mpr ⟨p, hp, ?_⟩
    rw [if_neg (by simp [hne])]
  · intro p hp hkey t rest hrest
    refine List.mem_filterMap.mpr ⟨p, hp, ?_⟩
    rw [if_pos (by simp [hkey]), hrest]

/-- Witness for the amended C7 on the two-store pool at a common key: the
step yields the lower-priority store's higher-revision tuple. -/
theorem claim_C7_merge_step_witness :
    proxyLoop 2 [(([120], [255, 255, 255, 254], [118, 97]), []),
                 (([120], [255, 255, 255, 253], [118, 98]), [])] =
      ([120], [255, 255, 255, 253], [118, 98]) ::
        proxyLoop 1 (advanceItems
          [(([120], [255, 255, 255, 254], [118, 97]), []),
           (([120], [255, 255, 255, 253], [118, 98]), [])] [120]) ∧
    (∃ p ∈ [(([120], [255, 255, 255, 254], [118, 97]), ([] : List Triple)),
            (([120], [255, 255, 255, 253], [118, 98]), [])],
      p.1 = ([120], [255, 255, 255, 253], [118, 98])) := by
  have h := claim_C7_merge_step 1
    [(([120], [255, 255, 255, 254], [118, 97]), []),
     (([120], [255, 255, 255, 253], [118, 98]), [])]
    ([120], [255, 255, 255, 253], [118, 98]) (by decide)
  exact ⟨h.1, h.2.1⟩

/-! ## Index lookup (`BoundIndex.iter_lookup_keys`, `SimpleIndex.key_range`) -/

/-- A prefix is never strictly greater. -/
theorem lexLt_prefix_false {a b : Bytes} (h : a <+: b) : lexLt b a = false := by
  by_cases he : a = b
  · subst he
    exact lexLt_irrefl a
  · exact lexLt_asymm (lexLt_of_prefix_ne h he)

/-- Generalisation of `lexLt_nul_append` to an arbitrary closing byte on the
right: when `b` is NUL-free and `a < b`, the comparison is decided before the
appended parts. -/
theorem lexLt_nulfree_append_lt {a b : Bytes} (hnb : ∀ x ∈ b, x ≠ 0)
    (h : lexLt a b = true) (s t : Bytes) (c : Nat) :
    lexLt (a ++ 0 :: s) (b ++ c :: t) = true := by
  by_cases hp : a <+: b
  · obtain ⟨w, hw⟩ := hp
    subst hw
    cases w with
    | nil =>
      rw [List.append_nil, lexLt_irrefl] at h
      exact absurd h (by simp)
    | cons c' cs =>
      have hc : c' ≠ 0 := hnb c' (by simp)
      have hstep : lexLt (0 :: s) (c' :: (cs ++ c :: t)) = true := by
        simp [lexLt_cons_cons, Nat.pos_of_ne_zero hc]
      calc lexLt (a ++ 0 :: s) ((a ++ c' :: cs) ++ c :: t)
          = lexLt (a ++ 0 :: s) (a ++ c' :: (cs ++ c :: t)) := by simp
        _ = true := by rw [lexLt_append_left]; exact hstep
  · by_cases hq : b <+: a
    · exfalso
      by_cases he : b = a
      · subst he
        rw [lexLt_irrefl] at h
        exact Bool.false_ne_true h
      · have h1 := lexLt_of_prefix_ne hq he
        have h2 := lexLt_asymm h1
        rw [h] at h2
        exact absurd h2 (by simp)
    · rw [lexLt_append_of_disjoint hp hq]
      exact h

/-- `set_range`-style stability of the start bound: appending a suffix to `u`
does not change its comparison against a target `sk` that `u` cannot
properly extend into. -/
theorem lexLt_append_stable {u sk : Bytes} (hnp : u <+: sk → u = sk) (s : Bytes) :
    lexLt (u ++ s) sk = lexLt u sk := by
  by_cases hp : u <+: sk
  · have he := hnp hp
    subst he
    rw [lexLt_prefix_false (⟨s, rfl⟩ : u <+: u ++ s), lexLt_irrefl]
  · by_cases hq : sk <+: u
    · rw [lexLt_prefix_false (hq.trans ⟨s, rfl⟩), lexLt_prefix_false hq]
    · have h := lexLt_append_of_disjoint hp hq s []
      simpa using h

/-- Exclusive end bound against an extended key: `ek < u ‖ s` iff `u` is not
below `ek`, provided `u` is no proper prefix of `ek`. -/
theorem lexLt_end_bound {u ek s : Bytes} (hs : s ≠ []) (hnp : u <+: ek → u = ek) :
    lexLt ek (u ++ s) = !lexLt u ek := by
  by_cases hp : u <+: ek
  · have he := hnp hp
    subst he
    have hne : u ≠ u ++ s := by
      intro hh
      have hl := congrArg List.length hh
      rw [List.length_append] at hl
      exact hs (List.length_eq_zero.mp (by omega))
    rw [lexLt_irrefl, lexLt_of_prefix_ne ⟨s, rfl⟩ hne]
    rfl
  · by_cases hq : ek <+: u
    · by_cases he : ek = u
      · exact absurd (he ▸ List.prefix_rfl) hp
      · have h1 : lexLt ek u = true := lexLt_of_prefix_ne hq he
        rw [lexLt_asymm h1]
        have hne2 : ek ≠ u ++ s := by
          intro hh
          obtain ⟨r, hr⟩ := hq
          have hrne : r ≠ [] := by
            intro hrnil
            rw [hrnil, List.append_nil] at hr
            exact he hr
          have hlen := congrArg List.length hh
          have hlen2 := congrArg List.length hr
          rw [List.length_append] at hlen hlen2
          have : 0 < r.length := List.length_pos.mpr hrne
          omega
        rw [lexLt_of_prefix_ne (hq.trans ⟨s, rfl⟩) hne2]
        rfl
    · have h3 := lexLt_append_of_disjoint hq hp [] s
      have h4 : lexLt ek (u ++ s) = lexLt ek u := by simpa using h3
      rw [h4]
      have hne : u ≠ ek := fun hh => hp (hh ▸ List.prefix_rfl)
      cases hu : lexLt u ek with
      | true =>
        rw [lexLt_asymm hu]
        rfl
      | false =>
        rw [lexLt_of_ne_of_not_lt hne hu]
        rfl

/-- The composite index key spelled out. -/
theorem indexDbKey_eq (v : Bytes) (p : Nat) :
    indexDbKey v p = v ++ 0 :: beBytes 4 p := by
  have h : indexDbKey v p = (v ++ [0]) ++ beBytes 4 p := rfl
  rw [h, List.append_assoc]
  rfl

theorem indexDbKey_length (v : Bytes) (p : Nat) :
    (indexDbKey v p).length = v.length + 5 := by
  rw [indexDbKey_eq]
  simp [beBytes_length]

/-- A composite index key always contains the NUL separator byte. -/
theorem indexDbKey_zero_mem (v : Bytes) (p : Nat) : (0 : Nat) ∈ indexDbKey v p := by
  rw [indexDbKey_eq]
  simp

/-- A byte string containing `0` is no prefix of a NUL-free one. -/
theorem not_prefix_of_nulfree {u t : Bytes} (h0 : (0 : Nat) ∈ u)
    (ht : ∀ x ∈ t, x ≠ 0) : ¬ u <+: t :=
  fun hp => ht 0 (hp.subset h0) rfl

/-- A composite index key is no prefix of `w ‖ 0` when `w` is NUL-free: its
own NUL separator would have to land inside `w`. -/
theorem idx_not_prefix_nulKey {v w : Bytes} {p : Nat} (hw : ∀ x ∈ w, x ≠ 0) :
    ¬ indexDbKey v p <+: w ++ [0] := by
  intro hp
  have hlen := hp.length_le
  rw [indexDbKey_length, List.length_append] at hlen
  have hvw : v.length < w.length := by
    simp only [List.length_cons, List.length_nil] at hlen
    omega
  have hu0 : (indexDbKey v p).getD v.length 1 = 0 := by
    have he : indexDbKey v p = (v ++ [0]) ++ beBytes 4 p := rfl
    rw [he, List.getD_append _ _ _ _ (by simp),
      List.getD_append_right _ _ _ _ (le_refl v.length)]
    simp
  obtain ⟨r, hr⟩ := hp
  have ht0 : (w ++ [0]).getD v.length 1 = 0 := by
    rw [← hr, List.getD_append _ _ _ _ (by rw [indexDbKey_length]; omega)]
    exact hu0
  rw [List.getD_append _ _ _ _ hvw, List.getD_eq_getElem _ _ hvw] at ht0
  exact hw _ (List.getElem_mem hvw) ht0

/-- `from_db_key`'s value component: drop the 4-byte pk and the NUL. -/
def indexValOf (dbKey : Bytes) : Bytes := dbKey.take (dbKey.length - 5)

theorem indexValOf_dbKey (v : Bytes) (p : Nat) : indexValOf (indexDbKey v p) = v := by
  unfold indexValOf
  rw [indexDbKey_length, Nat.add_sub_cancel, indexDbKey_eq]
  exact List.take_left v _

theorem indexPkOf_dbKey (v : Bytes) {p : Nat} (hp : p < 2 ^ 32) :
    indexPkOf (indexDbKey v p) = p := by
  unfold indexPkOf
  have he : indexDbKey v p = (v ++ [0]) ++ beBytes 4 p := rfl
  have hl : (indexDbKey v p).length - 4 = (v ++ [0]).length := by
    rw [indexDbKey_length]
    simp
  rw [hl, he, List.drop_left]
  have h4 : (256 : Nat) ^ 4 = 2 ^ 32 := by norm_num
  exact beVal_beBytes (by omega)

/-- The value-level reading of the `key_range` window, following the claim:
no end value means exactly the start value; an end value means the half-open
interval `[start, end)` in the codec's byte order. -/
def valueInRangeSpec (startV : Bytes) (endV? : Option Bytes) (v : Bytes) : Bool :=
  match endV? with
  | none => v == startV
  | some endV => !lexLt v startV && lexLt v endV

/-- Comparison of a composite key against a `value ‖ 0` bound reduces to the
value comparison (both values NUL-free). -/
theorem idx_lt_nul_key {v w : Bytes} (hv : ∀ x ∈ v, x ≠ 0) (hw : ∀ x ∈ w, x ≠ 0)
    (X : Bytes) : lexLt (v ++ 0 :: X) (w ++ [0]) = lexLt v w := by
  rcases lexLt_trichotomy v w with h | h | h
  · rw [h]
    exact lexLt_nulfree_append_lt hw h X [] 0
  · subst h
    rw [lexLt_irrefl]
    exact lexLt_prefix_false ⟨X, by simp⟩
  · rw [lexLt_asymm h]
    exact lexLt_asymm (lexLt_nulfree_append_lt hv h [] X 0)

/-- Comparison of a composite key against the single-value upper bound
`start ‖ 1` holds exactly on values `≤` the start value. -/
theorem idx_lt_one_key {v w : Bytes} (hv : ∀ x ∈ v, x ≠ 0) (hw : ∀ x ∈ w, x ≠ 0)
    (X : Bytes) : lexLt (v ++ 0 :: X) (w ++ [1]) = (lexLt v w || v == w) := by
  rcases lexLt_trichotomy v w with h | h | h
  · rw [h, Bool.true_or]
    exact lexLt_nulfree_append_lt hw h X [] 1
  · subst h
    rw [lexLt_irrefl, Bool.false_or, beq_self_eq_true]
    have hL : lexLt (v ++ 0 :: X) (v ++ [1]) = lexLt (0 :: X) [1] :=
      lexLt_append_left v _ _
    rw [hL]
    simp [lexLt_cons_cons]
  · have hra : lexLt v w = false := lexLt_asymm h
    have hrn : (v == w) = false := beq_eq_false_iff_ne.mpr (by
      intro hh
      rw [hh, lexLt_irrefl] at h
      exact Bool.false_ne_true h)
    rw [hra, hrn, Bool.or_false]
    by_cases hp : w <+: v
    · obtain ⟨r, hr⟩ := hp
      cases r with
      | nil =>
        rw [List.append_nil] at hr
        rw [hr, lexLt_irrefl] at h
        exact absurd h (by simp)
      | cons r0 rs =>
        have hr0 : r0 ≠ 0 := by
          apply hv r0
          rw [← hr]
          simp
        subst hr
        have hL : lexLt ((w ++ r0 :: rs) ++ 0 :: X) (w ++ [1]) =
            lexLt (r0 :: (rs ++ 0 :: X)) [1] := by
          rw [List.append_assoc]
          exact lexLt_append_left w _ _
        rw [hL]
        have : lexLt (r0 :: (rs ++ 0 :: X)) [1] =
            (decide (r0 < 1) || (r0 == 1 && lexLt (rs ++ 0 :: X) [])) :=
          lexLt_cons_cons r0 1 _ _
        rw [this]
        have h1 : decide (r0 < 1) = false := by
          simp only [decide_eq_false_iff_not]
          omega
        have h2 : lexLt (rs ++ 0 :: X) [] = false := by
          cases rs <;> rfl
        rw [h1, h2]
        simp
    · by_cases hq : v <+: w
      · exact absurd h (by rw [lexLt_prefix_false hq]; simp)
      · have := lexLt_append_of_disjoint hq hp (0 :: X) [1]
        have h5 : lexLt (v ++ 0 :: X) (w ++ [1]) = lexLt v w := by simpa using this
        rw [h5, hra]

/-- The `key_range` window on a composite key is exactly the value-level
window of the claim. -/
theorem userInRange_indexKey {v startV : Bytes} {p : Nat} {endV? : Option Bytes}
    (hv : ∀ x ∈ v, x ≠ 0) (hsv : ∀ x ∈ startV, x ≠ 0)
    (hev : ∀ ev, endV? = some ev → ∀ x ∈ ev, x ≠ 0) :
    userInRange (some (indexKeyRange startV endV?).1)
      (some (indexKeyRange startV endV?).2) (indexDbKey v p) =
      valueInRangeSpec startV endV? v := by
  have hne1 : (startV ++ [0] : Bytes).isEmpty = false := by
    cases startV <;> rfl
  cases endV? with
  | none =>
    have hU : userInRange (some ((indexKeyRange startV none).1))
        (some ((indexKeyRange startV none).2)) (indexDbKey v p) =
        ((if (startV ++ [0] : Bytes).isEmpty then true
          else !lexLt (indexDbKey v p) (startV ++ [0])) &&
         (if (startV ++ [1] : Bytes).isEmpty then true
          else lexLt (indexDbKey v p) (startV ++ [1]))) := rfl
    have hne2 : (startV ++ [1] : Bytes).isEmpty = false := by
      cases startV <;> rfl
    rw [hU, hne1, hne2, if_neg (by simp), if_neg (by simp), indexDbKey_eq,
      idx_lt_nul_key hv hsv, idx_lt_one_key hv hsv]
    by_cases he : v = startV
    · subst he
      simp [lexLt_irrefl, valueInRangeSpec]
    · have hb : (v == startV) = false := beq_eq_false_iff_ne.mpr he
      have hspec : valueInRangeSpec startV none v = (v == startV) := rfl
      rw [hspec, hb, Bool.or_false]
      cases hl : lexLt v startV <;> simp
  | some ev =>
    have hU : userInRange (some ((indexKeyRange startV (some ev)).1))
        (some ((indexKeyRange startV (some ev)).2)) (indexDbKey v p) =
        ((if (startV ++ [0] : Bytes).isEmpty then true
          else !lexLt (indexDbKey v p) (startV ++ [0])) &&
         (if (ev ++ [0] : Bytes).isEmpty then true
          else lexLt (indexDbKey v p) (ev ++ [0]))) := rfl
    have hne2 : (ev ++ [0] : Bytes).isEmpty = false := by
      cases ev <;> rfl
    rw [hU, hne1, hne2, if_neg (by simp), if_neg (by simp), indexDbKey_eq,
      idx_lt_nul_key hv hsv, idx_lt_nul_key hv (hev ev rfl)]
    rfl

/-- `filterMap` only depends on member values. -/
theorem filterMap_congr_mem {α β : Type} {l : List α} {f g : α → Option β}
    (h : ∀ a ∈ l, f a = g a) : l.filterMap f = l.filterMap g := by
  induction l with
  | nil => rfl
  | cons a t ih =>
    rw [List.filterMap_cons, List.filterMap_cons, h a (List.mem_cons_self _ _),
      ih (fun b hb => h b (List.mem_cons_of_mem _ hb))]

theorem dedupAdj_head : ∀ (u : Bytes) (l : List Bytes),
    (dedupAdj (u :: l)).head? = some u
  | _, [] => rfl
  | u, u' :: l => by
    by_cases h : u = u'
    · subst h
      rw [dedupAdj_cons_self]
      exact dedupAdj_head u l
    · rw [dedupAdj_cons_ne h]
      rfl

/-- Collapsing adjacent duplicates of a weakly ascending list leaves a
strictly ascending one. -/
theorem dedupAdj_chain : ∀ {l : List Bytes},
    l.Chain' (fun a b => a = b ∨ lexLt a b = true) →
    (dedupAdj l).Chain' (fun a b => lexLt a b = true)
  | [], _ => by simp [dedupAdj]
  | [u], _ => by simp [dedupAdj]
  | u :: u' :: rest, h => by
    rw [List.chain'_cons] at h
    obtain ⟨h1, h2⟩ := h
    by_cases he : u = u'
    · rw [he, dedupAdj_cons_self]
      exact dedupAdj_chain h2
    · rw [dedupAdj_cons_ne he, List.chain'_cons']
      refine ⟨?_, dedupAdj_chain h2⟩
      intro b hb
      rw [dedupAdj_head u' rest] at hb
      have hb' : u' = b := by simpa using hb
      subst hb'
      rcases h1 with h1 | h1
      · exact absurd h1 he
      · exact h1

/-- The distinct user keys of a well-formed environment are strictly
ascending. -/
theorem userKeys_chain {env : List Rec} (hWF : envWF env) :
    (userKeys env).Chain' (fun a b => lexLt a b = true) := by
  apply dedupAdj_chain
  rw [List.chain'_map]
  have hp : env.Pairwise keyLtRel := List.chain'_iff_pairwise.mp hWF.1
  have hp2 : env.Pairwise (fun e e' => userPart e.key = userPart e'.key ∨
      lexLt (userPart e.key) (userPart e'.key) = true) := by
    refine hp.imp_of_mem ?_
    intro e e' he he' hlt
    by_cases hu : userPart e.key = userPart e'.key
    · exact Or.inl hu
    · refine Or.inr ?_
      have hc := cross_user hWF he he' hu (packRev (revOf e.key))
        (packRev (revOf e'.key))
      have hwe := hWF.2.1 e he
      have hwe' := hWF.2.1 e' he'
      rw [← hwe.key_eq, ← hwe'.key_eq] at hc
      rw [← hc]
      exact hlt
  exact hp2.chain'

/-- **C8**: over an index sub-store (every record keyed by a composite
`value ‖ 0 ‖ be4(pk)` with NUL-free value), `iter_lookup_keys(start, end)`
yields exactly the pks of composites whose newest mark at or below the
snapshot is `'+'`, restricted to values in the requested range (exactly the
start value when no end is given, else `[start, end)`), in ascending
composite order (the distinct composites scanned ascending); a composite
whose newest visible mark is `'-'` is absent. -/
theorem claim_C8_index_lookup {env : List Rec} {S : Nat} {startV : Bytes}
    {endV? : Option Bytes} (val : Rec → Bytes) (pk : Rec → Nat)
    (hWF : envWF env) (hS1 : 1 ≤ S) (hS : S ≤ maxU32)
    (hidx : ∀ e ∈ env, userPart e.key = indexDbKey (val e) (pk e) ∧
      (∀ x ∈ val e, x ≠ 0) ∧ pk e < 2 ^ 32)
    (hsv : ∀ x ∈ startV, x ≠ 0)
    (hev : ∀ ev, endV? = some ev → ∀ x ∈ ev, x ≠ 0) :
    iterLookupKeys env (some S) none startV endV? =
      (userKeys env).filterMap (fun u =>
        match newestLE env u S with
        | some e =>
          if valueInRangeSpec startV endV? (indexValOf u) && (e.val == PLUS)
          then some (indexPkOf u)
          else none
        | none => none) ∧
    (userKeys env).Chain' (fun a b => lexLt a b = true) := by
  refine ⟨?_, userKeys_chain hWF⟩
  have hS0 : pyOr (some S) maxU32 = S := by
    have h : pyOr (some S) maxU32 = if S = 0 then maxU32 else S := rfl
    rw [h, if_neg (by omega)]
  have hsr0 : pyOr none 0 = 0 := rfl
  have hstart : ∀ sk, some (indexKeyRange startV endV?).1 = some sk →
      sk.isEmpty = false → ∀ e ∈ env, lexLt e.key sk = lexLt (userPart e.key) sk := by
    intro sk hsk _ e he
    injection hsk with hsk
    subst hsk
    have hwe := hWF.2.1 e he
    obtain ⟨hu, hvfree, hplt⟩ := hidx e he
    conv_lhs => rw [hwe.key_eq]
    apply lexLt_append_stable
    intro hp
    exfalso
    rw [hu] at hp
    have hr1 : (indexKeyRange startV endV?).1 = startV ++ [0] := rfl
    rw [hr1] at hp
    exact idx_not_prefix_nulKey hsv hp
  have hend : ∀ ek, some (indexKeyRange startV endV?).2 = some ek →
      ek.isEmpty = false → ∀ e ∈ env, lexLt ek e.key = !lexLt (userPart e.key) ek := by
    intro ek hek _ e he
    injection hek with hek
    subst hek
    have hwe := hWF.2.1 e he
    obtain ⟨hu, hvfree, hplt⟩ := hidx e he
    conv_lhs => rw [hwe.key_eq]
    conv_rhs => rw [hwe.key_eq, userPart_append (packRev_length _)]
    apply lexLt_end_bound
    · intro hh
      have hl := packRev_length (revOf e.key)
      rw [hh] at hl
      simp at hl
    · intro hp
      exfalso
      rw [hu] at hp
      cases hE : endV? with
      | none =>
        rw [hE] at hp
        have hr2 : (indexKeyRange startV none).2 = startV ++ [1] := rfl
        rw [hr2] at hp
        refine not_prefix_of_nulfree (indexDbKey_zero_mem _ _) ?_ hp
        intro x hx
        rcases List.mem_append.mp hx with h | h
        · exact hsv x h
        · simp only [List.mem_singleton] at h
          omega
      | some ev =>
        rw [hE] at hp
        have hr2 : (indexKeyRange startV (some ev)).2 = ev ++ [0] := rfl
        rw [hr2] at hp
        exact idx_not_prefix_nulKey (hev ev hE) hp
  have hiter := @rdsIterItems_eq env hWF
    (some (indexKeyRange startV endV?).1)
    (some (indexKeyRange startV endV?).2)
    (some S) none
    (by rw [hS0]; exact hS) (by rw [hsr0]; unfold maxU32; omega) hstart hend
  rw [hS0, hsr0] at hiter
  have hL : iterLookupKeys env (some S) none startV endV? =
      (rdsIterItems env (some (indexKeyRange startV endV?).1)
        (some (indexKeyRange startV endV?).2) (some S) none).filterMap
        (fun t => if t.2.2 == PLUS then some (indexPkOf t.1) else none) := rfl
  rw [hL, hiter]
  unfold specIterItems
  rw [List.filterMap_filterMap]
  apply filterMap_congr_mem
  intro u hu
  obtain ⟨e0, he0, hue⟩ := List.mem_map.mp (mem_of_mem_dedupAdj hu)
  obtain ⟨hu0, hv0, hp0⟩ := hidx e0 he0
  have hukey : u = indexDbKey (val e0) (pk e0) := by rw [← hue, hu0]
  have hY : specYield env (some (indexKeyRange startV endV?).1)
      (some (indexKeyRange startV endV?).2) S 0 u =
      (if userInRange (some (indexKeyRange startV endV?).1)
          (some (indexKeyRange startV endV?).2) u then
        match newestLE env u S with
        | some e => if 0 ≤ revOf e.key then some (u, revPart e.key, e.val) else none
        | none => none
      else none) := rfl
  rw [hY, hukey, userInRange_indexKey hv0 hsv hev, indexValOf_dbKey]
  by_cases hR : valueInRangeSpec startV endV? (val e0) = true
  · rw [if_pos hR, hR]
    cases hN : newestLE env (indexDbKey (val e0) (pk e0)) S with
    | none => rfl
    | some e =>
      have hred : (match some e with
          | some e' => if 0 ≤ revOf e'.key then
              some (indexDbKey (val e0) (pk e0), revPart e'.key, e'.val) else none
          | none => (none : Option (Bytes × Bytes × Bytes))) =
          if 0 ≤ revOf e.key then
            some (indexDbKey (val e0) (pk e0), revPart e.key, e.val) else none := rfl
      rw [hred, if_pos (Nat.zero_le _)]
      have hbind : (some (indexDbKey (val e0) (pk e0), revPart e.key, e.val)).bind
          (fun t => if t.2.2 == PLUS then some (indexPkOf t.1) else none) =
          (if e.val == PLUS then some (indexPkOf (indexDbKey (val e0) (pk e0)))
           else none) := rfl
      rw [hbind]
      have hR2 : (match some e with
          | some e' => if (true && e'.val == PLUS) = true then
              some (indexPkOf (indexDbKey (val e0) (pk e0))) else none
          | none => (none : Option Nat)) =
          if (true && e.val == PLUS) = true then
            some (indexPkOf (indexDbKey (val e0) (pk e0))) else none := rfl
      rw [hR2, Bool.true_and]
  · have hRf : valueInRangeSpec startV endV? (val e0) = false := by
      cases hb : valueInRangeSpec startV endV? (val e0)
      · rfl
      · exact absurd hb hR
    rw [if_neg hR, hRf]
    cases hN : newestLE env (indexDbKey (val e0) (pk e0)) S with
    | none => rfl
    | some e =>
      have hred : (match some e with
          | some e' => if (false && (e'.val == PLUS)) = true then
              some (indexPkOf (indexDbKey (val e0) (pk e0))) else none
          | none => (none : Option Nat)) =
          if (false && (e.val == PLUS)) = true then
            some (indexPkOf (indexDbKey (val e0) (pk e0))) else none := rfl
      rw [hred]
      simp

/-- Witness for C8 on a three-composite index store at snapshot 1:
`(B, 7)` marked `'+'`, `(B, 9)` marked `'-'`, `(C, 7)` marked `'+'`;
looking up value `B` yields exactly `[7]`. -/
theorem claim_C8_index_lookup_witness :
    iterLookupKeys
      [⟨[66, 0, 0, 0, 0, 7, 255, 255, 255, 254], [43]⟩,
       ⟨[66, 0, 0, 0, 0, 9, 255, 255, 255, 254], [45]⟩,
       ⟨[67, 0, 0, 0, 0, 7, 255, 255, 255, 254], [43]⟩]
      (some 1) none [66] none = [7] := by
  have h := (@claim_C8_index_lookup
      [⟨[66, 0, 0, 0, 0, 7, 255, 255, 255, 254], [43]⟩,
       ⟨[66, 0, 0, 0, 0, 9, 255, 255, 255, 254], [45]⟩,
       ⟨[67, 0, 0, 0, 0, 7, 255, 255, 255, 254], [43]⟩]
      1 [66] none
      (fun e => indexValOf (userPart e.key)) (fun e => indexPkOf (userPart e.key))
      (by decide) (by decide) (by decide) (by decide) (by decide)
      (fun ev hev => absurd hev (by simp))).1
  rw [h]
  decide

/-! ## Commit protocol (`database.py`): `_try_commit`, `Transaction.commit`,
`Transaction.conflicts` -/

/-- The database-level commit state: `_current_commit` plus the contents of
the `_commits` collection (commit revision ↦ recorded updates, an association
of collection name to the pks written). -/
structure DB where
  current : Nat
  commits : List (Nat × List (String × List Nat))

/-- A transaction's view: its snapshot `current_commit` and `self._updates`. -/
structure Txn where
  currentCommit : Nat
  updates : List (String × List Nat)

/-- `RepriseDB._try_commit(commit)`: `IntegrityError` unless the caller is at
the current commit, else advance. -/
def tryCommit (db : DB) (c : Nat) : Except String (DB × Nat) :=
  if c ≠ db.current then .error "RepriseDBIntegrityError"
  else .ok ({ db with current := db.current + 1 }, db.current + 1)

/-- `self._updates.setdefault(n, set())`. -/
def lookupUpd (u : List (String × List Nat)) (n : String) : List Nat :=
  match u.find? (fun p => p.1 == n) with
  | some p => p.2
  | none => []

/-- `t.get('_commits', c)['updates']`. -/
def commitUpdates (db : DB) (c : Nat) : List (String × List Nat) :=
  match db.commits.find? (fun p => p.1 == c) with
  | some p => p.2
  | none => []

/-- One commit's contribution to `conflicts()`: for every collection in the
recorded commit, the intersection with the transaction's own updates. -/
def conflictsStep (tUpd cUpd : List (String × List Nat)) (c : Nat) :
    List (String × Nat × Nat) :=
  cUpd.flatMap (fun p =>
    ((lookupUpd tUpd p.1).filter (fun k => p.2.contains k)).map (fun k => (p.1, k, c)))

/-- One iteration of the `for c in xrange(...)` loop of `conflicts()`:
extend the result and, while it is still empty, advance `current_commit`. -/
def conflictsAcc (db : DB) (tUpd : List (String × List Nat))
    (acc : List (String × Nat × Nat) × Nat) (c : Nat) :
    List (String × Nat × Nat) × Nat :=
  (acc.1 ++ conflictsStep tUpd (commitUpdates db c) c,
   if (acc.1 ++ conflictsStep tUpd (commitUpdates db c) c).isEmpty then c else acc.2)

/-- `conflicts()` returns `None` on an empty result, else the result list. -/
def conflictsFinish (res : List (String × Nat × Nat) × Nat) :
    Option (List (String × Nat × Nat)) × Nat :=
  (if res.1.isEmpty then none else some res.1, res.2)

/-- `Transaction.conflicts()`: scan the commits between the snapshot and the
database head; also reports the possibly advanced `current_commit`. -/
def conflictsRun (db : DB) (t : Txn) : Option (List (String × Nat × Nat)) × Nat :=
  conflictsFinish
    ((List.range' (t.currentCommit + 1) (db.current - t.currentCommit)).foldl
      (conflictsAcc db t.updates) ([], t.currentCommit))

/-- `Transaction.commit(autoresolve)`: `_try_commit` at the snapshot; on
`IntegrityError`, retry once from the advanced commit when `conflicts()`
found nothing, else re-raise.  On success the commit record is written to
`_commits`. -/
def txnCommit (db : DB) (t : Txn) (autoresolve : Bool) : Except String (DB × Nat) :=
  match tryCommit db t.currentCommit with
  | .ok (db', r) => .ok ({ db' with commits := (r, t.updates) :: db'.commits }, r)
  | .error e =>
    if autoresolve then
      match (conflictsRun db t).1 with
      | none =>
        match tryCommit db (conflictsRun db t).2 with
        | .ok (db', r) => .ok ({ db' with commits := (r, t.updates) :: db'.commits }, r)
        | .error e' => .error e'
      | some _ => .error e
    else .error e

/-- **C2**: two transactions at the same snapshot `S = db.current` that both
put pk `k` in collection `col`.  The first commits as revision `S + 1`; the
second's commit raises `IntegrityError` even with auto-resolution, and its
`conflicts()` returns a list containing `(col, k, S + 1)`. -/
theorem claim_C2_conflict_detection (db0 : DB) (u1 u2 : List (String × List Nat))
    (col : String) (k : Nat)
    (hk1 : k ∈ lookupUpd u1 col) (hk2 : k ∈ lookupUpd u2 col) :
    txnCommit db0 ⟨db0.current, u1⟩ true =
      .ok (⟨db0.current + 1, (db0.current + 1, u1) :: db0.commits⟩, db0.current + 1) ∧
    txnCommit ⟨db0.current + 1, (db0.current + 1, u1) :: db0.commits⟩
        ⟨db0.current, u2⟩ true = .error "RepriseDBIntegrityError" ∧
    ∃ l, (conflictsRun ⟨db0.current + 1, (db0.current + 1, u1) :: db0.commits⟩
        ⟨db0.current, u2⟩).1 = some l ∧ (col, k, db0.current + 1) ∈ l := by
  have htc1 : tryCommit db0 db0.current =
      .ok (⟨db0.current + 1, db0.commits⟩, db0.current + 1) := by
    unfold tryCommit
    rw [if_neg (by simp)]
  have hA : txnCommit db0 ⟨db0.current, u1⟩ true =
      .ok (⟨db0.current + 1, (db0.current + 1, u1) :: db0.commits⟩, db0.current + 1) := by
    unfold txnCommit
    rw [htc1]
  have hcu : commitUpdates ⟨db0.current + 1, (db0.current + 1, u1) :: db0.commits⟩
      (db0.current + 1) = u1 := by
    unfold commitUpdates
    rw [List.find?_cons_of_pos _ (by simp)]
  obtain ⟨p0, hf0⟩ : ∃ p0, u1.find? (fun p => p.1 == col) = some p0 := by
    unfold lookupUpd at hk1
    cases hf : u1.find? (fun p => p.1 == col) with
    | none =>
      rw [hf] at hk1
      exact absurd hk1 (List.not_mem_nil k)
    | some p0 => exact ⟨p0, rfl⟩
  have hp0col : p0.1 = col := by
    have := List.find?_some hf0
    simpa using this
  have hp0mem : p0 ∈ u1 := List.mem_of_find?_eq_some hf0
  have hk1' : k ∈ p0.2 := by
    unfold lookupUpd at hk1
    rw [hf0] at hk1
    exact hk1
  have htrip : (col, k, db0.current + 1) ∈ conflictsStep u2 u1 (db0.current + 1) := by
    unfold conflictsStep
    refine List.mem_flatMap.mpr ⟨p0, hp0mem, ?_⟩
    refine List.mem_map.mpr ⟨k, ?_, by rw [hp0col]⟩
    refine List.mem_filter.mpr ⟨?_, ?_⟩
    · rw [hp0col]
      exact hk2
    · exact List.elem_eq_true_of_mem hk1'
  have hne : (conflictsStep u2 u1 (db0.current + 1)).isEmpty = false := by
    cases hc : conflictsStep u2 u1 (db0.current + 1) with
    | nil =>
      rw [hc] at htrip
      exact absurd htrip (List.not_mem_nil _)
    | cons _ _ => rfl
  have hrange : List.range' (db0.current + 1)
      ((⟨db0.current + 1, (db0.current + 1, u1) :: db0.commits⟩ : DB).current
        - db0.current) = [db0.current + 1] := by
    have h1 : (⟨db0.current + 1, (db0.current + 1, u1) :: db0.commits⟩ : DB).current
        - db0.current = 1 := by simp
    rw [h1]
    rfl
  have hrun : (conflictsRun ⟨db0.current + 1, (db0.current + 1, u1) :: db0.commits⟩
      ⟨db0.current, u2⟩).1 = some (conflictsStep u2 u1 (db0.current + 1)) := by
    have h0 : conflictsRun ⟨db0.current + 1, (db0.current + 1, u1) :: db0.commits⟩
        ⟨db0.current, u2⟩ =
        conflictsFinish ((List.range' (db0.current + 1)
          ((⟨db0.current + 1, (db0.current + 1, u1) :: db0.commits⟩ : DB).current
            - db0.current)).foldl
          (conflictsAcc ⟨db0.current + 1, (db0.current + 1, u1) :: db0.commits⟩ u2)
          ([], db0.current)) := rfl
    rw [h0, hrange]
    have h1 : ([db0.current + 1] : List Nat).foldl
        (conflictsAcc ⟨db0.current + 1, (db0.current + 1, u1) :: db0.commits⟩ u2)
        ([], db0.current) =
        conflictsAcc ⟨db0.current + 1, (db0.current + 1, u1) :: db0.commits⟩ u2
          ([], db0.current) (db0.current + 1) := rfl
    rw [h1]
    unfold conflictsAcc
    rw [hcu]
    unfold conflictsFinish
    simp only [List.nil_append]
    rw [hne]
    rfl
  have htc2 : tryCommit ⟨db0.current + 1, (db0.current + 1, u1) :: db0.commits⟩
      db0.current = .error "RepriseDBIntegrityError" := by
    unfold tryCommit
    rw [if_pos (by simp)]
  have hB : txnCommit ⟨db0.current + 1, (db0.current + 1, u1) :: db0.commits⟩
      ⟨db0.current, u2⟩ true = .error "RepriseDBIntegrityError" := by
    unfold txnCommit
    rw [htc2, hrun]
    rfl
  exact ⟨hA, hB, conflictsStep u2 u1 (db0.current + 1), hrun, htrip⟩

/-- Witness for C2: an empty database at commit 0, both transactions put
pk 5 in collection `"people"`. -/
theorem claim_C2_conflict_detection_witness :
    txnCommit ⟨0, []⟩ ⟨0, [("people", [5])]⟩ true =
      .ok (⟨1, [(1, [("people", [5])])]⟩, 1) ∧
    txnCommit ⟨1, [(1, [("people", [5])])]⟩ ⟨0, [("people", [5])]⟩ true =
      .error "RepriseDBIntegrityError" ∧
    ∃ l, (conflictsRun ⟨1, [(1, [("people", [5])])]⟩ ⟨0, [("people", [5])]⟩).1 =
      some l ∧ ("people", 5, 1) ∈ l :=
  claim_C2_conflict_detection ⟨0, []⟩ [("people", [5])] [("people", [5])]
    "people" 5 (by decide) (by decide)

end RepriseDB
